import Mathlib

/-!
# `ptr_vector`: an owning sequence of heap-allocated elements

A shallow embedding of `src/ptr_vector.hpp`.

* The free store is an explicit `Heap T`: `new value_type(value)` allocates a fresh
  address and counts a construction, destroying a `std::unique_ptr` deletes its
  pointee and counts a destruction.
* `std::vector<std::unique_ptr<T>>` is a `List pointer`: each `unique_ptr` is
  represented by the raw pointer it holds (`nullptr` is `0`).
* A `T&` is represented by the address of its referent; its value is read from the
  heap with `Heap.mem`.
* The wrapped vector iterators are positions (an `Int` offset from the start of the
  buffer); `std::size_t` and `difference_type` are 64 bit wide.
* Undefined behaviour (popping an empty vector, an iterator outside
  `[begin, end]`, an unchecked index out of range, control flowing off the end of a
  function that returns a value) is `none`; a thrown exception is `Except.error`.
* An expression that names a member or a conversion its operand does not have has
  no value: `none`.
* A program is a sequence of calls on two stores over one free store
  (`program_state`, `operation`, `program_state.run`); the invariants of the
  container are proved for every such sequence.
-/

namespace ptr_vec

/-! ## The free store -/

/-- A raw `T*`: an address, `0` being `nullptr`. -/
abbrev pointer := Nat

/-- The null pointer. -/
def nullptr : pointer := 0

/-- A `T&`, represented by the address of the element it refers to. -/
abbrev reference := pointer

/-- The free store: the live objects, the last address handed out by `new`, and
the number of element constructions and destructions so far. -/
structure Heap (T : Type) where
  mem : pointer → Option T
  brk : Nat
  constructions : Nat
  destructions : Nat

/-- The free store before anything was allocated. -/
def Heap.empty {T : Type} : Heap T :=
  { mem := fun _ => none, brk := 0, constructions := 0, destructions := 0 }

/-- The expression `new value_type(value)`: a fresh, non-null address holding a copy
of `value`. -/
def Heap.new {T : Type} (h : Heap T) (value : T) : Heap T × pointer :=
  ({ mem := fun q => if q = h.brk + 1 then some value else h.mem q,
     brk := h.brk + 1,
     constructions := h.constructions + 1,
     destructions := h.destructions }, h.brk + 1)

/-- Destruction of a `std::unique_ptr` holding `p`: `if (p != nullptr) delete p;`. -/
def Heap.delete {T : Type} (h : Heap T) (p : pointer) : Heap T :=
  if p = nullptr then h
  else { mem := fun q => if q = p then none else h.mem q,
         brk := h.brk,
         constructions := h.constructions,
         destructions := h.destructions + 1 }

/-- Destruction of a run of `std::unique_ptr`s, front to back. -/
def Heap.delete_all {T : Type} (h : Heap T) (ps : List pointer) : Heap T :=
  ps.foldl Heap.delete h

/-! ## Machine integers -/

/-- Conversion of a `difference_type` to `std::size_t` (modulo `2^64`). -/
def to_size_t (d : Int) : Nat := (d % 2 ^ 64).toNat

/-- Conversion of a `std::size_t` to `difference_type` (two's complement). -/
def to_difference_type (n : Nat) : Int :=
  if n % 2 ^ 64 < 2 ^ 63 then ((n % 2 ^ 64 : Nat) : Int) else ((n % 2 ^ 64 : Nat) : Int) - 2 ^ 64

/-- Largest `difference_type`; no `std::vector` is longer than this. -/
def PTRDIFF_MAX : Nat := 2 ^ 63 - 1

/-! ## The container and its iterators -/

/-- The exceptions the container can signal. -/
inductive exception where
  | out_of_range
deriving DecidableEq, Repr

/-- The class `ptr_vector<T>`: its only data member is `_vec`. -/
structure ptr_vector where
  _vec : List pointer
deriving DecidableEq, Repr

namespace detail

/-- The class `_ptr_vec_itr<T>`: wraps the position `_itr` of a vector iterator. -/
structure _ptr_vec_itr where
  _itr : Int
deriving DecidableEq, Repr

/-- The class `_ptr_vec_const_itr<T>`: wraps the position `_citr` of a vector
const_iterator. It has no other data member. -/
structure _ptr_vec_const_itr where
  _citr : Int
deriving DecidableEq, Repr

end detail

/-- The member type `ptr_vector::iterator`. -/
abbrev iterator := detail._ptr_vec_itr

/-- The member type `ptr_vector::const_iterator`. -/
abbrev const_iterator := detail._ptr_vec_const_itr

/-- The default constructor `ptr_vector(): _vec() { }`. -/
def ptr_vector.empty_store : ptr_vector := { _vec := [] }

/-- Source: `size_type size() const noexcept {return _vec.size();}`. -/
def ptr_vector.size (self : ptr_vector) : Nat := self._vec.length

/-- Source: `bool empty() const noexcept {return _vec.empty();}`. -/
def ptr_vector.empty (self : ptr_vector) : Bool := self._vec.isEmpty

/-- The values of the elements, slot by slot, as read through the handles. -/
def ptr_vector.values {T : Type} (h : Heap T) (self : ptr_vector) : List (Option T) :=
  self._vec.map h.mem

/-- The store owns its elements: the handles are pairwise distinct, non-null,
were handed out by `new`, and their elements are alive. -/
def ptr_vector.owned {T : Type} (h : Heap T) (self : ptr_vector) : Prop :=
  self._vec.Nodup ∧ ∀ a ∈ self._vec, a ≠ nullptr ∧ a ≤ h.brk ∧ (h.mem a).isSome = true

instance {T : Type} (h : Heap T) (self : ptr_vector) : Decidable (ptr_vector.owned h self) := by
  unfold ptr_vector.owned; infer_instance

/-! ### Element access -/

/-- Source: `reference at(std::size_t i) {return *_vec.at(i);}`: `std::vector::at` throws
`std::out_of_range` when `i >= size()`. -/
def ptr_vector.at (self : ptr_vector) (i : Nat) : Except exception reference :=
  if h : i < self._vec.length then .ok (self._vec.get ⟨i, h⟩) else .error exception.out_of_range

/-- Source: `reference operator[](std::size_t i) noexcept {return *_vec[i];}`: unchecked. -/
def ptr_vector.subscript (self : ptr_vector) (i : Nat) : Option reference :=
  self._vec[i]?

/-- Source: `reference back() {return *_vec.back();}`. -/
def ptr_vector.back (self : ptr_vector) : Option reference :=
  self._vec.getLast?

/-- Source: `reference front() {return *_vec.front();}`. -/
def ptr_vector.front (self : ptr_vector) : Option reference :=
  self._vec.head?

/-! ### Iterators -/

/-- Source: `_ptr_vec_itr::operator*`, `{return **_itr;}`, for an iterator into `self`: the
element owned by the slot at the iterator's position. -/
def detail._ptr_vec_itr.deref (it : iterator) (self : ptr_vector) : Option reference :=
  if 0 ≤ it._itr then self._vec[it._itr.toNat]? else none

/-- Source: `_ptr_vec_itr& operator++() noexcept {++_itr;return *this;}`. -/
def detail._ptr_vec_itr.pre_inc (it : iterator) : iterator :=
  { _itr := it._itr + 1 }

/-- Source: `bool operator!=(const _ptr_vec_itr& rhs) const noexcept {return _itr != rhs._itr;}`. -/
def detail._ptr_vec_itr.ne (it rhs : iterator) : Bool :=
  it._itr != rhs._itr

/-- Source: `bool operator==(const _ptr_vec_itr& rhs) const noexcept {return !(*this != rhs);}`. -/
def detail._ptr_vec_itr.eq (it rhs : iterator) : Bool :=
  !(it.ne rhs)

/-- Source: `_ptr_vec_itr& operator+=(std::size_t n) noexcept {_itr += n;return *this;}`: the
vector iterator takes a `difference_type`, to which `n` is converted. -/
def detail._ptr_vec_itr.add_assign (it : iterator) (n : Nat) : iterator :=
  { _itr := it._itr + to_difference_type n }

/-- Source: `difference_type operator-(const _ptr_vec_itr& rhs) const noexcept {return _itr - rhs._itr;}`. -/
def detail._ptr_vec_itr.distance (it rhs : iterator) : Int :=
  it._itr - rhs._itr

/-- Source: `detail::operator+(const _ptr_vec_itr<T>& lhs, std::size_t rhs)`:
`auto tmp = lhs; tmp += rhs; return tmp;`. -/
def detail._ptr_vec_itr.add (lhs : iterator) (rhs : Nat) : iterator :=
  lhs.add_assign rhs

/-- Source: `_ptr_vec_const_itr(const _ptr_vec_itr<T>& itr): _citr(itr._itr) { }`. -/
def detail._ptr_vec_const_itr.of_itr (itr : iterator) : const_iterator :=
  { _citr := itr._itr }

/-- Source: `_ptr_vec_const_itr::operator*`, `{return **_citr;}`, for an iterator into `self`. -/
def detail._ptr_vec_const_itr.deref (it : const_iterator) (self : ptr_vector) :
    Option reference :=
  if 0 ≤ it._citr then self._vec[it._citr.toNat]? else none

/-- Source: `_ptr_vec_const_itr& operator++() noexcept {++_citr;return *this;}`. -/
def detail._ptr_vec_const_itr.pre_inc (it : const_iterator) : const_iterator :=
  { _citr := it._citr + 1 }

/-- Member access `x.name` on an object `x` of class `_ptr_vec_const_itr`: the class
declares the one data member `_citr`, its base `std::iterator` declares none; any
other name denotes nothing. -/
def detail._ptr_vec_const_itr.member (x : const_iterator) (name : String) : Option Int :=
  if name = "_citr" then some x._citr else none

/-- Source: `bool operator!=(const _ptr_vec_const_itr& rhs) const noexcept {return _citr != rhs._itr;}`:
the right operand is a `_ptr_vec_const_itr`, and the body reads its member `_itr`. -/
def detail._ptr_vec_const_itr.ne (it rhs : const_iterator) : Option Bool :=
  (rhs.member "_itr").map (fun r => it._citr != r)

/-- Source: `bool operator==(const _ptr_vec_const_itr& rhs) const noexcept {return !(*this != rhs);}`. -/
def detail._ptr_vec_const_itr.eq (it rhs : const_iterator) : Option Bool :=
  (it.ne rhs).map (fun b => !b)

/-- Source: `_ptr_vec_const_itr& operator+=(std::size_t n) noexcept {_citr += n;return *this;}`. -/
def detail._ptr_vec_const_itr.add_assign (it : const_iterator) (n : Nat) : const_iterator :=
  { _citr := it._citr + to_difference_type n }

/-- Source: `difference_type operator-(const _ptr_vec_const_itr& rhs) const noexcept {return _citr - rhs._citr;}`. -/
def detail._ptr_vec_const_itr.distance (it rhs : const_iterator) : Int :=
  it._citr - rhs._citr

/-- Source: `detail::operator+(const _ptr_vec_const_itr<T>& lhs, std::size_t rhs)`. -/
def detail._ptr_vec_const_itr.add (lhs : const_iterator) (rhs : Nat) : const_iterator :=
  lhs.add_assign rhs

/-- Source: `iterator begin() noexcept {return iterator(_vec.begin());}`. -/
def ptr_vector.begin (_self : ptr_vector) : iterator :=
  { _itr := 0 }

/-- Source: `iterator end() noexcept {return iterator(_vec.end());}`. -/
def ptr_vector.end (self : ptr_vector) : iterator :=
  { _itr := self._vec.length }

/-- Source: `const_iterator cbegin() const noexcept {return const_iterator(_vec.cbegin());}`. -/
def ptr_vector.cbegin (_self : ptr_vector) : const_iterator :=
  { _citr := 0 }

/-- Source: `const_iterator cend() const noexcept {return const_iterator(_vec.cend());}`. -/
def ptr_vector.cend (self : ptr_vector) : const_iterator :=
  { _citr := self._vec.length }

/-- Source: `std::distance(first, last)` on random-access iterators: `last - first`. -/
def std_distance (first last : const_iterator) : Int :=
  last.distance first

/-! ### The underlying `std::vector<std::unique_ptr<T>>` -/

/-- Source: `_vec.insert(pos, std::move(x))` and `_vec.emplace(pos, x)`: `pos` must lie in
`[begin, end]`; the handle is placed before `pos`, the later handles move up by one,
and the result points at the new slot. -/
def vector_insert (vec : List pointer) (pos : Int) (x : pointer) : Option (List pointer × Int) :=
  if 0 ≤ pos ∧ pos ≤ vec.length then
    some (vec.take pos.toNat ++ x :: vec.drop pos.toNat, pos)
  else none

/-- Source: `_vec.erase(pos)`: `pos` must be dereferenceable; the handle there is destroyed,
the later handles move down by one, and the result points at the slot that followed. -/
def vector_erase {T : Type} (h : Heap T) (vec : List pointer) (pos : Int) :
    Option (Heap T × List pointer × Int) :=
  if 0 ≤ pos then
    match vec[pos.toNat]? with
    | some p => some (h.delete p, vec.eraseIdx pos.toNat, pos)
    | none => none
  else none

/-- Source: `_vec.erase(first, last)`: `[first, last)` must be a range of the vector; its
handles are destroyed, the later handles move down, and the result points at the
slot that followed the range. -/
def vector_erase_range {T : Type} (h : Heap T) (vec : List pointer) (first last : Int) :
    Option (Heap T × List pointer × Int) :=
  if 0 ≤ first ∧ first ≤ last ∧ last ≤ vec.length then
    some (h.delete_all ((vec.drop first.toNat).take (last.toNat - first.toNat)),
          vec.take first.toNat ++ vec.drop last.toNat, first)
  else none

/-! ### Structural mutation -/

/-- Source: `iterator insert(iterator pos, const_reference value)
{return iterator{_vec.insert(pos._itr, _ptr_t(new value_type(value)))};}`. -/
def ptr_vector.insert {T : Type} (h : Heap T) (self : ptr_vector) (pos : iterator) (value : T) :
    Option (Heap T × ptr_vector × iterator) :=
  match vector_insert self._vec pos._itr (h.new value).2 with
  | some (vec, it) => some ((h.new value).1, { _vec := vec }, { _itr := it })
  | none => none

/-- The loop `for (size_type n = 0;n != count;++n) {it = insert(it, value);}` with
`remaining = count - n` iterations to go (the body does not read `n`). -/
def ptr_vector.insert_count_loop {T : Type} (value : T) :
    Nat → Heap T → ptr_vector → iterator → Option (Heap T × ptr_vector × iterator)
  | 0, h, self, it => some (h, self, it)
  | remaining + 1, h, self, it =>
    match self.insert h it value with
    | some (h1, self1, it1) => ptr_vector.insert_count_loop value remaining h1 self1 it1
    | none => none

/-- Source: `iterator insert(const_iterator pos, size_type count, const_reference value)`:
`iterator it{begin() + std::distance(cbegin(), pos)};` followed by the loop. -/
def ptr_vector.insert_count {T : Type} (h : Heap T) (self : ptr_vector) (pos : const_iterator)
    (count : Nat) (value : T) : Option (Heap T × ptr_vector × iterator) :=
  ptr_vector.insert_count_loop value count h self
    (self.begin.add (to_size_t (std_distance self.cbegin pos)))

/-- Source: `iterator erase(iterator pos) {return iterator{_vec.erase(pos._itr)};}`. -/
def ptr_vector.erase {T : Type} (h : Heap T) (self : ptr_vector) (pos : iterator) :
    Option (Heap T × ptr_vector × iterator) :=
  match vector_erase h self._vec pos._itr with
  | some (h1, vec, it) => some (h1, { _vec := vec }, { _itr := it })
  | none => none

/-- Source: `iterator erase(iterator first, iterator last)
{return iterator{_vec.erase(first._itr, last._itr)};}`. -/
def ptr_vector.erase_range {T : Type} (h : Heap T) (self : ptr_vector) (first last : iterator) :
    Option (Heap T × ptr_vector × iterator) :=
  match vector_erase_range h self._vec first._itr last._itr with
  | some (h1, vec, it) => some (h1, { _vec := vec }, { _itr := it })
  | none => none

/-- Source: `void push_back(const_reference value) {_vec.push_back(_ptr_t(new value_type(value)));}`. -/
def ptr_vector.push_back {T : Type} (h : Heap T) (self : ptr_vector) (value : T) :
    Heap T × ptr_vector :=
  ((h.new value).1, { _vec := self._vec ++ [(h.new value).2] })

/-- Source: `void pop_back() {_vec.pop_back();}`: the vector must not be empty; its last
handle is destroyed. -/
def ptr_vector.pop_back {T : Type} (h : Heap T) (self : ptr_vector) :
    Option (Heap T × ptr_vector) :=
  match self._vec.getLast? with
  | some p => some (h.delete p, { _vec := self._vec.dropLast })
  | none => none

/-- The loop `for (size_type n = _vec.size() - count;n != 0;--n) {pop_back();}`. -/
def ptr_vector.resize_shrink {T : Type} :
    Nat → Heap T → ptr_vector → Option (Heap T × ptr_vector)
  | 0, h, self => some (h, self)
  | n + 1, h, self =>
    match self.pop_back h with
    | some (h1, self1) => ptr_vector.resize_shrink n h1 self1
    | none => none

/-- The loop `for (size_type n = count - _vec.size();n != 0;--n) {push_back(value);}`. -/
def ptr_vector.resize_grow {T : Type} (value : T) :
    Nat → Heap T → ptr_vector → Heap T × ptr_vector
  | 0, h, self => (h, self)
  | n + 1, h, self =>
    ptr_vector.resize_grow value n (self.push_back h value).1 (self.push_back h value).2

/-- Source: `void resize(size_type count, const_reference value)`. -/
def ptr_vector.resize {T : Type} (h : Heap T) (self : ptr_vector) (count : Nat) (value : T) :
    Option (Heap T × ptr_vector) :=
  if self._vec.length > count then
    ptr_vector.resize_shrink (self._vec.length - count) h self
  else
    some (ptr_vector.resize_grow value (count - self._vec.length) h self)

/-- Source: `void push_back_own(pointer value) {if (value != nullptr) _vec.emplace_back(value);}`. -/
def ptr_vector.push_back_own {T : Type} (h : Heap T) (self : ptr_vector) (value : pointer) :
    Heap T × ptr_vector :=
  if value ≠ nullptr then (h, { _vec := self._vec ++ [value] }) else (h, self)

/-- Source: `ptr_vector(ptr_vector&&) noexcept = default;`: the new store takes over the
vector of `sink`, which is left empty. The result is the new store and `sink`. -/
def ptr_vector.move_construct {T : Type} (h : Heap T) (sink : ptr_vector) :
    Heap T × ptr_vector × ptr_vector :=
  (h, { _vec := sink._vec }, { _vec := [] })

/-- Source: `ptr_vector& operator=(ptr_vector&& sink) = default;`: the handles `self` held
are destroyed, `self` takes over the vector of `sink`, which is left empty. The
result is `self` and `sink`. -/
def ptr_vector.move_assign {T : Type} (h : Heap T) (self sink : ptr_vector) :
    Heap T × ptr_vector × ptr_vector :=
  (h.delete_all self._vec, { _vec := sink._vec }, { _vec := [] })

/-! ### Traversal -/

/-- The loop `for (; it != last; ++it) out.push_back(&*it);` over mutable iterators,
stopped after `fuel` evaluations of `it != last`. -/
def traverse (self : ptr_vector) (last : iterator) : Nat → iterator → Option (List reference)
  | 0, _ => none
  | fuel + 1, it =>
    if it.ne last then
      match it.deref self with
      | some r => (traverse self last fuel it.pre_inc).map (fun out => r :: out)
      | none => none
    else some []

/-- The same loop over read-only iterators. -/
def const_traverse (self : ptr_vector) (last : const_iterator) :
    Nat → const_iterator → Option (List reference)
  | 0, _ => none
  | fuel + 1, it =>
    match it.ne last with
    | some true =>
      match it.deref self with
      | some r => (const_traverse self last fuel it.pre_inc).map (fun out => r :: out)
      | none => none
    | some false => some []
    | none => none

/-! ### Further iterator operations -/

/-- Source: `_ptr_vec_itr operator++(int) noexcept {auto tmp = *this;++*this;return tmp;}`:
the result is the returned copy and the iterator afterwards. -/
def detail._ptr_vec_itr.post_inc (it : iterator) : iterator × iterator :=
  (it, it.pre_inc)

/-- Source: `_ptr_vec_itr& operator--() noexcept {--_itr;return *this;}`. -/
def detail._ptr_vec_itr.pre_dec (it : iterator) : iterator :=
  { _itr := it._itr - 1 }

/-- Source: `_ptr_vec_itr operator--(int) noexcept {auto tmp = *this;--*this;return tmp;}`:
the result is the returned copy and the iterator afterwards. -/
def detail._ptr_vec_itr.post_dec (it : iterator) : iterator × iterator :=
  (it, it.pre_dec)

/-- The expression `-n` for a `std::size_t n`: unsigned negation, modulo `2^64`. -/
def size_t_neg (n : Nat) : Nat := (2 ^ 64 - n % 2 ^ 64) % 2 ^ 64

/-- Source: `_ptr_vec_itr& operator-=(std::size_t n) noexcept {*this += -n;return *this;}`. -/
def detail._ptr_vec_itr.sub_assign (it : iterator) (n : Nat) : iterator :=
  it.add_assign (size_t_neg n)

/-- Source: `_ptr_vec_itr operator-(std::size_t n) const noexcept {auto tmp = *this;return (tmp -= n);}`. -/
def detail._ptr_vec_itr.sub (it : iterator) (n : Nat) : iterator :=
  it.sub_assign n

/-- Source: `_ptr_vec_const_itr operator++(int) noexcept {auto tmp = *this;++*this;return tmp;}`. -/
def detail._ptr_vec_const_itr.post_inc (it : const_iterator) : const_iterator × const_iterator :=
  (it, it.pre_inc)

/-- Source: `_ptr_vec_const_itr& operator--() noexcept {++_citr;return *this;}`: the body
increments `_citr`. -/
def detail._ptr_vec_const_itr.pre_dec (it : const_iterator) : const_iterator :=
  { _citr := it._citr + 1 }

/-- Source: `_ptr_vec_const_itr operator--(int) noexcept {auto tmp = *this;++*this;return tmp;}`:
the body calls `operator++`. The result is the returned copy and the iterator
afterwards. -/
def detail._ptr_vec_const_itr.post_dec (it : const_iterator) : const_iterator × const_iterator :=
  (it, it.pre_inc)

/-- Source: `_ptr_vec_const_itr& operator-=(std::size_t n) noexcept {_citr -= n;return *this;}`:
the vector iterator takes a `difference_type`, to which `n` is converted. -/
def detail._ptr_vec_const_itr.sub_assign (it : const_iterator) (n : Nat) : const_iterator :=
  { _citr := it._citr - to_difference_type n }

/-- Source: `_ptr_vec_const_itr operator-(std::size_t n) const noexcept {auto tmp = *this;return (tmp -= n);}`. -/
def detail._ptr_vec_const_itr.sub (it : const_iterator) (n : Nat) : const_iterator :=
  it.sub_assign n

/-! ### Further member functions -/

/-- Source: `iterator emplace(iterator pos, Args&&... args)
{return iterator{_vec.emplace(pos._itr, new value_type(std::forward<Args>(args)...))};}`;
`value` is the element that `value_type(args...)` constructs. -/
def ptr_vector.emplace {T : Type} (h : Heap T) (self : ptr_vector) (pos : iterator) (value : T) :
    Option (Heap T × ptr_vector × iterator) :=
  match vector_insert self._vec pos._itr (h.new value).2 with
  | some (vec, it) => some ((h.new value).1, { _vec := vec }, { _itr := it })
  | none => none

/-- Source: `void emplace_back(Args&&... args)
{_vec.emplace_back(new value_type{std::forward<Args>(args)...});}`; `value` is the element
that `value_type{args...}` constructs. -/
def ptr_vector.emplace_back {T : Type} (h : Heap T) (self : ptr_vector) (value : T) :
    Heap T × ptr_vector :=
  ((h.new value).1, { _vec := self._vec ++ [(h.new value).2] })

/-- Source: `void clear() {_vec.clear();}`: every handle is destroyed. -/
def ptr_vector.clear {T : Type} (h : Heap T) (self : ptr_vector) : Heap T × ptr_vector :=
  (h.delete_all self._vec, { _vec := [] })

/-- The implicitly defined destructor of `ptr_vector`: `_vec` is destroyed, and with it
every handle. -/
def ptr_vector.destroy {T : Type} (h : Heap T) (self : ptr_vector) : Heap T :=
  h.delete_all self._vec

/-- Source: `void reserve(size_type n) {_vec.reserve(n);}`: the capacity is not part of the
model; the handles stay as they are. -/
def ptr_vector.reserve {T : Type} (h : Heap T) (self : ptr_vector) (_n : Nat) :
    Heap T × ptr_vector :=
  (h, self)

/-- Source: `void shrink_to_fit() {_vec.shrink_to_fit();}`: the handles stay as they are. -/
def ptr_vector.shrink_to_fit {T : Type} (h : Heap T) (self : ptr_vector) : Heap T × ptr_vector :=
  (h, self)

/-- Source: `void reset_at(std::size_t pos, const_reference value)
{_vec.at(pos).reset(new value_type(value));}`, evaluated in the order written (as the
language guarantees from C++17 on): `_vec.at(pos)` throws `std::out_of_range` when
`pos >= size()`, before anything is allocated; otherwise `reset` stores the new
pointer in the slot and then deletes the element the slot held. The result is the
free store and the store afterwards, and whether the call threw. -/
def ptr_vector.reset_at {T : Type} (h : Heap T) (self : ptr_vector) (pos : Nat) (value : T) :
    Heap T × ptr_vector × Except exception Unit :=
  if hp : pos < self._vec.length then
    ((h.new value).1.delete (self._vec.get ⟨pos, hp⟩),
     { _vec := self._vec.set pos (h.new value).2 }, .ok ())
  else (h, self, .error exception.out_of_range)

/-- Source: `void emplace_reset_at(std::size_t pos, Args&&... args)
{_vec.at(pos).reset(new value_type(std::forward<Args>(args)...));}`; `value` is the
element that `value_type(args...)` constructs. -/
def ptr_vector.emplace_reset_at {T : Type} (h : Heap T) (self : ptr_vector) (pos : Nat)
    (value : T) : Heap T × ptr_vector × Except exception Unit :=
  if hp : pos < self._vec.length then
    ((h.new value).1.delete (self._vec.get ⟨pos, hp⟩),
     { _vec := self._vec.set pos (h.new value).2 }, .ok ())
  else (h, self, .error exception.out_of_range)

/-- What a statement executed in a function body means for the value the call hands
back: an expression statement evaluates its expression and discards the value, a
`return` statement hands its value back. -/
inductive statement_effect (ρ : Type) where
  | discarded (value : ρ)
  | returned (value : ρ)

/-- The value a call hands back, given the statements its body executed: that of the
first `return` statement, and none when control reached the end of the body without
one. -/
def return_value {ρ : Type} : List (statement_effect ρ) → Option ρ
  | [] => none
  | statement_effect.returned value :: _ => some value
  | statement_effect.discarded _ :: rest => return_value rest

/-- The body of `insert_own`, `{if (value != nullptr) iterator{_vec.emplace(itr._itr, value)};}`,
run to its closing brace: the free store and the store it leaves, and the statements
it executed. For a non-null `value` the one statement executed is the expression
statement that emplaces the pointer and builds an iterator from the result; for
`nullptr` no statement is executed. -/
def ptr_vector.insert_own_body {T : Type} (h : Heap T) (self : ptr_vector) (itr : iterator)
    (value : pointer) : Option (Heap T × ptr_vector × List (statement_effect iterator)) :=
  if value ≠ nullptr then
    match vector_insert self._vec itr._itr value with
    | some (vec, it) => some (h, { _vec := vec }, [statement_effect.discarded { _itr := it }])
    | none => none
  else some (h, self, [])

/-- Source: `iterator insert_own(iterator itr, pointer value)
{if (value != nullptr) iterator{_vec.emplace(itr._itr, value)};}`: a call of a function
returning `iterator`. It has a defined outcome only if its body executed a `return`
statement; control that flows off the end of the body is undefined behaviour. -/
def ptr_vector.insert_own {T : Type} (h : Heap T) (self : ptr_vector) (itr : iterator)
    (value : pointer) : Option (Heap T × ptr_vector × iterator) :=
  match self.insert_own_body h itr value with
  | some (h1, self1, executed) =>
    match return_value executed with
    | some it => some (h1, self1, it)
    | none => none
  | none => none

/-- The argument `other` of `_vec.swap(other)` taken as the
`std::vector<std::unique_ptr<T>, Alloc>&` that `std::vector::swap` expects: `other` is a
`ptr_vector&`, and `ptr_vector` neither derives from its vector nor declares a
conversion to it, so no such reference exists. -/
def ptr_vector.as_vector_ref (_other : ptr_vector) : Option (List pointer) :=
  none

/-- Source: `void swap(ptr_vector& other) {_vec.swap(other);}`: `std::vector::swap`
exchanges the handles of `_vec` with those of the vector its argument refers to. The
result is `self` and `other` afterwards. -/
def ptr_vector.swap {T : Type} (h : Heap T) (self other : ptr_vector) :
    Option (Heap T × ptr_vector × ptr_vector) :=
  match other.as_vector_ref with
  | some vec => some (h, { _vec := vec }, { _vec := self._vec })
  | none => none

/-! ### Sequences of calls on two stores -/

/-- The calls a program can make on a store: the public member functions that change
it (positions are given by the mutable-iterator overloads; the `const_iterator`
overloads of `insert` and `erase` have the same bodies), and `allocate`, by which the
caller itself evaluates `new value_type(value)` and keeps the pointer. -/
inductive operation (T : Type) where
  | insert (pos : iterator) (value : T)
  | insert_count (pos : const_iterator) (count : Nat) (value : T)
  | emplace (pos : iterator) (value : T)
  | erase (pos : iterator)
  | erase_range (first last : iterator)
  | push_back (value : T)
  | emplace_back (value : T)
  | pop_back
  | resize (count : Nat) (value : T)
  | reset_at (pos : Nat) (value : T)
  | emplace_reset_at (pos : Nat) (value : T)
  | clear
  | reserve (n : Nat)
  | shrink_to_fit
  | swap
  | move_construct
  | move_assign
  | push_back_own (value : pointer)
  | insert_own (itr : iterator) (value : pointer)
  | allocate (value : T)

/-- The pointers a call takes over from the caller: the non-null argument of
`push_back_own` and of `insert_own`. -/
def operation.adopted {T : Type} : operation T → List pointer
  | .push_back_own value => if value ≠ nullptr then [value] else []
  | .insert_own _ value => if value ≠ nullptr then [value] else []
  | _ => []

/-- The calls by which a store constructs and destroys its elements itself: all but
the ownership-transfer entry points and the caller's own allocations. -/
def operation.owning {T : Type} : operation T → Bool
  | .push_back_own _ => false
  | .insert_own _ _ => false
  | .allocate _ => false
  | _ => true

/-- The call `self.op(...)`, with `other` the store that a move or swap takes as its
argument: the free store, `self` and `other` afterwards. An exception thrown by
`reset_at` is caught by the caller and the program goes on. `move_construct` builds a
new store from `self`, which is then destroyed, and goes on with the new store in its
place; `move_assign` is `self = std::move(other)`. A call of `insert_own` has no
defined outcome (see `ptr_vector.insert_own`); the sequence is followed on from the
store as the body of `insert_own` leaves it, so that what is proved of all reached
states holds of those states too. -/
def operation.apply {T : Type} (h : Heap T) (self other : ptr_vector) :
    operation T → Option (Heap T × ptr_vector × ptr_vector)
  | .insert pos value => (self.insert h pos value).map (fun r => (r.1, r.2.1, other))
  | .insert_count pos count value =>
    (self.insert_count h pos count value).map (fun r => (r.1, r.2.1, other))
  | .emplace pos value => (self.emplace h pos value).map (fun r => (r.1, r.2.1, other))
  | .erase pos => (self.erase h pos).map (fun r => (r.1, r.2.1, other))
  | .erase_range first last =>
    (self.erase_range h first last).map (fun r => (r.1, r.2.1, other))
  | .push_back value => some ((self.push_back h value).1, (self.push_back h value).2, other)
  | .emplace_back value =>
    some ((self.emplace_back h value).1, (self.emplace_back h value).2, other)
  | .pop_back => (self.pop_back h).map (fun r => (r.1, r.2, other))
  | .resize count value => (self.resize h count value).map (fun r => (r.1, r.2, other))
  | .reset_at pos value =>
    some ((self.reset_at h pos value).1, (self.reset_at h pos value).2.1, other)
  | .emplace_reset_at pos value =>
    some ((self.emplace_reset_at h pos value).1, (self.emplace_reset_at h pos value).2.1, other)
  | .clear => some ((self.clear h).1, (self.clear h).2, other)
  | .reserve n => some ((self.reserve h n).1, (self.reserve h n).2, other)
  | .shrink_to_fit => some ((self.shrink_to_fit h).1, (self.shrink_to_fit h).2, other)
  | .swap => self.swap h other
  | .move_construct =>
    some ((ptr_vector.move_construct h self).2.2.destroy (ptr_vector.move_construct h self).1,
          (ptr_vector.move_construct h self).2.1, other)
  | .move_assign => some (ptr_vector.move_assign h self other)
  | .push_back_own value =>
    some ((self.push_back_own h value).1, (self.push_back_own h value).2, other)
  | .insert_own itr value =>
    (self.insert_own_body h itr value).map (fun r => (r.1, r.2.1, other))
  | .allocate value => some ((h.new value).1, self, other)

/-- A program state: the free store and two stores. -/
structure program_state (T : Type) where
  heap : Heap T
  first : ptr_vector
  second : ptr_vector

/-- The start: nothing allocated, both stores default-constructed. -/
def program_state.init {T : Type} : program_state T :=
  { heap := Heap.empty, first := ptr_vector.empty_store, second := ptr_vector.empty_store }

/-- The handles of all slots, of both stores. -/
def program_state.handles {T : Type} (st : program_state T) : List pointer :=
  st.first._vec ++ st.second._vec

/-- A call: the store it is made on (the other store is the argument of a move or
swap) and the operation. -/
structure call (T : Type) where
  on_second : Bool
  op : operation T

/-- One call of the program. -/
def program_state.step {T : Type} (st : program_state T) (c : call T) :
    Option (program_state T) :=
  if c.on_second then
    (c.op.apply st.heap st.second st.first).map
      (fun r => { heap := r.1, first := r.2.2, second := r.2.1 })
  else
    (c.op.apply st.heap st.first st.second).map
      (fun r => { heap := r.1, first := r.2.1, second := r.2.2 })

/-- A sequence of calls, one after the other; `none` once a call has no defined
outcome. -/
def program_state.run {T : Type} : List (call T) → program_state T → Option (program_state T)
  | [], st => some st
  | c :: rest, st =>
    match st.step c with
    | some st1 => program_state.run rest st1
    | none => none

/-- The end of the program: both stores are destroyed. -/
def program_state.finish {T : Type} (st : program_state T) : Heap T :=
  st.first.destroy (st.second.destroy st.heap)

/-- The pointers a call takes over are new to the stores: each points to an
element that `new` has handed out and that no slot references. -/
def program_state.transfer_ok {T : Type} (st : program_state T) (c : call T) : Bool :=
  c.op.adopted.all (fun p => decide (p ∉ st.handles) && decide (p ≤ st.heap.brk))

/-- Every call of the sequence, made in its turn, takes over only pointers that are
new to the stores. -/
def program_state.transfers_ok {T : Type} : List (call T) → program_state T → Bool
  | [], _ => true
  | c :: rest, st =>
    st.transfer_ok c &&
      match st.step c with
      | some st1 => program_state.transfers_ok rest st1
      | none => true

/-- What the free store `h1` holds after a call that allocated the `n` addresses
following `h.brk` and destroyed the handles `deleted`: an element that was destroyed
is gone, an element that was allocated is alive, and every other address holds what
it held in `h`. -/
def heap_effect {T : Type} (h h1 : Heap T) (n : Nat) (deleted : List pointer) : Prop :=
  ∀ a : pointer,
    (a ∈ deleted → a ≠ nullptr → h1.mem a = none) ∧
    (a ∉ deleted →
      (a ∈ List.range' (h.brk + 1) n → (h1.mem a).isSome = true) ∧
      (a ∉ List.range' (h.brk + 1) n → h1.mem a = h.mem a))

/-- What a call may do to the handles `L` of the stores, arriving at `L1`: it takes
over the pointers `adopted`, allocates `n` elements, and destroys the handles
`deleted`; when the handles were all handed out by `new`, the free store changes
accordingly. -/
def footprint {T : Type} (h h1 : Heap T) (L L1 adopted : List pointer) : Prop :=
  ∃ n deleted,
    (L1 ++ deleted).Perm (adopted ++ (List.range' (h.brk + 1) n ++ L)) ∧
    h1.brk = h.brk + n ∧
    h1.constructions = h.constructions + n ∧
    h1.destructions =
      h.destructions + (deleted.filter (fun a => decide (a ≠ nullptr))).length ∧
    ((∀ a ∈ L, a ≤ h.brk) → heap_effect h h1 n deleted)

/-- The elements alive in the free store are exactly those that the slots `L`
reference: no element has leaked and no slot dangles. -/
def live_exactly {T : Type} (h : Heap T) (L : List pointer) : Prop :=
  ∀ a : pointer, (h.mem a).isSome = true ↔ a ∈ L

/-! ## Theorems -/

/-! ### Auxiliary facts: machine integers and the free store -/

theorem to_difference_type_of_le (n : Nat) (hn : n ≤ PTRDIFF_MAX) :
    to_difference_type n = (n : Int) := by
  unfold PTRDIFF_MAX at hn
  unfold to_difference_type
  have h1 : n % 2 ^ 64 = n := Nat.mod_eq_of_lt (by omega)
  rw [h1]
  have h2 : n < 2 ^ 63 := by omega
  rw [if_pos h2]

theorem to_size_t_of_le (n : Nat) (hn : n ≤ PTRDIFF_MAX) : to_size_t (n : Int) = n := by
  unfold PTRDIFF_MAX at hn
  unfold to_size_t
  have h1 : ((n : Int) % 2 ^ 64) = (n : Int) := by
    apply Int.emod_eq_of_lt <;> omega
  rw [h1]; simp

theorem begin_add_itr (self : ptr_vector) (p : Nat) (hp : p ≤ PTRDIFF_MAX) :
    self.begin.add p = { _itr := (p : Int) } := by
  simp [ptr_vector.begin, detail._ptr_vec_itr.add, detail._ptr_vec_itr.add_assign,
    to_difference_type_of_le p hp]

theorem cbegin_add_citr (self : ptr_vector) (p : Nat) (hp : p ≤ PTRDIFF_MAX) :
    self.cbegin.add p = { _citr := (p : Int) } := by
  simp [ptr_vector.cbegin, detail._ptr_vec_const_itr.add, detail._ptr_vec_const_itr.add_assign,
    to_difference_type_of_le p hp]

theorem Heap.delete_brk {T : Type} (h : Heap T) (p : pointer) : (h.delete p).brk = h.brk := by
  unfold Heap.delete; split <;> rfl

theorem Heap.delete_constructions {T : Type} (h : Heap T) (p : pointer) :
    (h.delete p).constructions = h.constructions := by
  unfold Heap.delete; split <;> rfl

theorem Heap.delete_mem_of_ne {T : Type} (h : Heap T) (p a : pointer) (hne : a ≠ p) :
    (h.delete p).mem a = h.mem a := by
  unfold Heap.delete; split
  · rfl
  · simp [hne]

theorem Heap.delete_all_brk {T : Type} (ps : List pointer) (h : Heap T) :
    (h.delete_all ps).brk = h.brk := by
  induction ps generalizing h with
  | nil => rfl
  | cons p ps ih =>
    simp only [Heap.delete_all, List.foldl_cons] at ih ⊢
    rw [ih, Heap.delete_brk]

theorem Heap.delete_all_constructions {T : Type} (ps : List pointer) (h : Heap T) :
    (h.delete_all ps).constructions = h.constructions := by
  induction ps generalizing h with
  | nil => rfl
  | cons p ps ih =>
    simp only [Heap.delete_all, List.foldl_cons] at ih ⊢
    rw [ih, Heap.delete_constructions]

theorem Heap.delete_all_mem_of_not_mem {T : Type} (ps : List pointer) (h : Heap T) (a : pointer)
    (ha : a ∉ ps) : (h.delete_all ps).mem a = h.mem a := by
  induction ps generalizing h with
  | nil => rfl
  | cons p ps ih =>
    simp only [List.mem_cons, not_or] at ha
    simp only [Heap.delete_all, List.foldl_cons] at ih ⊢
    rw [ih _ ha.2, Heap.delete_mem_of_ne _ _ _ ha.1]

theorem Heap.new_mem_of_le {T : Type} (h : Heap T) (value : T) (a : pointer) (ha : a ≤ h.brk) :
    (h.new value).1.mem a = h.mem a := by
  have : a ≠ h.brk + 1 := Nat.ne_of_lt (Nat.lt_succ_of_le ha)
  simp [Heap.new, this]

/-! ### Auxiliary facts: the loops of `resize` -/

theorem resize_grow_spec {T : Type} (value : T) (n : Nat) (h : Heap T) (self : ptr_vector) :
    (ptr_vector.resize_grow value n h self).2._vec = self._vec ++ List.range' (h.brk + 1) n ∧
    (ptr_vector.resize_grow value n h self).1.brk = h.brk + n ∧
    (ptr_vector.resize_grow value n h self).1.constructions = h.constructions + n ∧
    (ptr_vector.resize_grow value n h self).1.destructions = h.destructions ∧
    (∀ a, a ≤ h.brk → (ptr_vector.resize_grow value n h self).1.mem a = h.mem a) ∧
    (∀ a, h.brk < a → a ≤ h.brk + n →
      (ptr_vector.resize_grow value n h self).1.mem a = some value) := by
  induction n generalizing h self with
  | zero =>
    refine ⟨by simp [ptr_vector.resize_grow], rfl, rfl, rfl, fun _ _ => rfl, ?_⟩
    intro a h1 h2
    exact absurd h2 (Nat.not_le_of_lt h1)
  | succ n ih =>
    obtain ⟨e1, e2, e3, e4, e5, e6⟩ := ih (self.push_back h value).1 (self.push_back h value).2
    have hb : (self.push_back h value).1.brk = h.brk + 1 := rfl
    simp only [ptr_vector.resize_grow]
    refine ⟨?_, ?_, ?_, ?_, ?_, ?_⟩
    · rw [e1, hb]
      simp [ptr_vector.push_back, Heap.new, List.range'_succ]
    · rw [e2, hb]; omega
    · rw [e3]; simp only [ptr_vector.push_back, Heap.new]; omega
    · rw [e4]; rfl
    · intro a ha
      rw [e5 a (by rw [hb]; exact Nat.le_succ_of_le ha)]
      exact Heap.new_mem_of_le h value a ha
    · intro a h1 h2
      by_cases hab : a = h.brk + 1
      · rw [e5 a (by rw [hb]; exact Nat.le_of_eq hab)]
        simp [ptr_vector.push_back, Heap.new, hab]
      · apply e6 a
        · rw [hb]; omega
        · rw [hb]; omega

theorem resize_shrink_append {T : Type} (ys zs : List pointer) (h : Heap T) :
    ptr_vector.resize_shrink zs.length h { _vec := ys ++ zs } =
      some (h.delete_all zs.reverse, { _vec := ys }) := by
  induction zs using List.reverseRecOn generalizing h with
  | nil => simp [ptr_vector.resize_shrink, Heap.delete_all]
  | append_singleton zs z ih =>
    have hl : (zs ++ [z]).length = zs.length + 1 := by simp
    rw [hl]
    simp only [ptr_vector.resize_shrink, ptr_vector.pop_back]
    have h1 : (ys ++ (zs ++ [z])).getLast? = some z := by
      rw [← List.append_assoc]; simp
    have h2 : (ys ++ (zs ++ [z])).dropLast = ys ++ zs := by
      rw [← List.append_assoc]; simp
    rw [h1, h2]
    simp only
    rw [ih]
    simp [Heap.delete_all]

/-! ### Auxiliary facts: traversal -/

theorem traverse_from (self : ptr_vector) (fuel k : Nat) (hk : k ≤ self._vec.length) :
    traverse self self.end fuel { _itr := (k : Int) } =
      if self._vec.length - k < fuel then some (self._vec.drop k) else none := by
  induction fuel generalizing k with
  | zero => simp [traverse]
  | succ fuel ih =>
    by_cases hlt : k < self._vec.length
    · have hne : ((k : Int) != (self._vec.length : Int)) = true := by
        simp only [bne_iff_ne, ne_eq, Nat.cast_inj]; omega
      have hderef : detail._ptr_vec_itr.deref { _itr := (k : Int) } self =
          some (self._vec.get ⟨k, hlt⟩) := by
        simp [detail._ptr_vec_itr.deref, List.getElem?_eq_getElem hlt]
      have hinc : detail._ptr_vec_itr.pre_inc { _itr := (k : Int) } =
          { _itr := ((k + 1 : Nat) : Int) } := by
        simp [detail._ptr_vec_itr.pre_inc]
      simp only [traverse, detail._ptr_vec_itr.ne, ptr_vector.end, hne, if_true, hderef, hinc]
      have ih2 := ih (k + 1) hlt
      simp only [ptr_vector.end] at ih2
      rw [ih2]
      by_cases hf : self._vec.length - (k + 1) < fuel
      · have hf2 : self._vec.length - k < fuel + 1 := by omega
        simp only [hf, hf2, if_true, Option.map_some']
        rw [List.drop_eq_getElem_cons hlt]
        rfl
      · have hf2 : ¬ self._vec.length - k < fuel + 1 := by omega
        simp [hf, hf2]
    · have hkeq : k = self._vec.length := by omega
      subst hkeq
      simp [traverse, detail._ptr_vec_itr.ne, ptr_vector.end]

/-! ### Auxiliary facts: insertion and erasure at a position -/

theorem insert_at {T : Type} (h : Heap T) (self : ptr_vector) (p : Nat) (value : T)
    (hp : p ≤ self._vec.length) :
    self.insert h { _itr := (p : Int) } value =
      some ((h.new value).1,
            { _vec := self._vec.take p ++ (h.brk + 1) :: self._vec.drop p },
            { _itr := (p : Int) }) := by
  have hle : (p : Int) ≤ (self._vec.length : Int) := by exact_mod_cast hp
  simp [ptr_vector.insert, vector_insert, hle, Heap.new]

theorem values_of_le_brk {T : Type} (h h1 : Heap T) (vec : List pointer)
    (hmem : ∀ a, a ≤ h.brk → h1.mem a = h.mem a) (hall : ∀ a ∈ vec, a ≤ h.brk) :
    vec.map h1.mem = vec.map h.mem := by
  apply List.map_congr_left
  intro a ha
  exact hmem a (hall a ha)

theorem insert_count_loop_spec {T : Type} (value : T) (c : Nat) (h : Heap T)
    (self : ptr_vector) (p : Nat) (hp : p ≤ self._vec.length) :
    ∃ h1, ptr_vector.insert_count_loop value c h self { _itr := (p : Int) } =
        some (h1,
          { _vec := self._vec.take p ++ (List.range' (h.brk + 1) c).reverse ++ self._vec.drop p },
          { _itr := (p : Int) }) ∧
      h1.brk = h.brk + c ∧
      (∀ a, a ≤ h.brk → h1.mem a = h.mem a) ∧
      (∀ a, h.brk < a → a ≤ h.brk + c → h1.mem a = some value) ∧
      (c = 0 → h1 = h) := by
  induction c generalizing h self with
  | zero =>
    refine ⟨h, by simp [ptr_vector.insert_count_loop], rfl, fun _ _ => rfl, ?_, fun _ => rfl⟩
    intro a h1 h2
    exact absurd h2 (Nat.not_le_of_lt h1)
  | succ c ih =>
    have hlen : (self._vec.take p).length = p := by simp [hp]
    have hp1 : p ≤ (self._vec.take p ++ (h.brk + 1) :: self._vec.drop p).length := by
      simp; omega
    obtain ⟨h2, e, eb, e5, e6, _⟩ := ih (h.new value).1
      { _vec := self._vec.take p ++ (h.brk + 1) :: self._vec.drop p } hp1
    have hb : (h.new value).1.brk = h.brk + 1 := rfl
    refine ⟨h2, ?_, ?_, ?_, ?_, ?_⟩
    · simp only [ptr_vector.insert_count_loop, insert_at h self p value hp]
      rw [e, hb]
      have ht : (self._vec.take p ++ (h.brk + 1) :: self._vec.drop p).take p
          = self._vec.take p := by
        rw [List.take_append_of_le_length (by omega), List.take_take]; simp
      have hd : (self._vec.take p ++ (h.brk + 1) :: self._vec.drop p).drop p
          = (h.brk + 1) :: self._vec.drop p := by
        rw [List.drop_append_of_le_length (by omega)]
        have : List.drop p (List.take p self._vec) = [] := by
          apply List.drop_eq_nil_of_le; omega
        rw [this]; rfl
      simp only [ht, hd]
      simp [List.range'_succ]
    · rw [eb, hb]; omega
    · intro a ha
      rw [e5 a (by rw [hb]; exact Nat.le_succ_of_le ha)]
      exact Heap.new_mem_of_le h value a ha
    · intro a h1 h2
      by_cases hab : a = h.brk + 1
      · rw [e5 a (by rw [hb]; exact Nat.le_of_eq hab)]
        simp [Heap.new, hab]
      · apply e6 a
        · rw [hb]; omega
        · rw [hb]; omega
    · intro hc; omega

theorem erase_range_at {T : Type} (h : Heap T) (self : ptr_vector) (f l : Nat)
    (hfl : f ≤ l) (hl : l ≤ self._vec.length) :
    self.erase_range h { _itr := (f : Int) } { _itr := (l : Int) } =
      some (h.delete_all ((self._vec.drop f).take (l - f)),
            { _vec := self._vec.take f ++ self._vec.drop l },
            { _itr := (f : Int) }) := by
  have h1 : (f : Int) ≤ (l : Int) := by exact_mod_cast hfl
  have h2 : (l : Int) ≤ (self._vec.length : Int) := by exact_mod_cast hl
  simp [ptr_vector.erase_range, vector_erase_range, h1, h2]

theorem erase_at {T : Type} (h : Heap T) (self : ptr_vector) (f : Nat)
    (hf : f < self._vec.length) :
    self.erase h { _itr := (f : Int) } =
      some (h.delete (self._vec.get ⟨f, hf⟩),
            { _vec := self._vec.take f ++ self._vec.drop (f + 1) },
            { _itr := (f : Int) }) := by
  simp [ptr_vector.erase, vector_erase, List.getElem?_eq_getElem hf,
    List.eraseIdx_eq_take_drop_succ]

theorem not_mem_erased_of_nodup (vec : List pointer) (f l : Nat) (hfl : f ≤ l)
    (hnd : vec.Nodup) (a : pointer) (ha : a ∈ vec.take f ∨ a ∈ vec.drop l) :
    a ∉ (vec.drop f).take (l - f) := by
  have hd : vec.drop f = (vec.drop f).take (l - f) ++ vec.drop l := by
    have h1 := (List.take_append_drop (l - f) (vec.drop f)).symm
    have hdd : (vec.drop f).drop (l - f) = vec.drop l := by
      rw [List.drop_drop]; congr 1; omega
    rw [hdd] at h1
    exact h1
  have hv : vec = vec.take f ++ ((vec.drop f).take (l - f) ++ vec.drop l) := by
    rw [← hd, List.take_append_drop]
  rw [hv, List.nodup_append] at hnd
  obtain ⟨_, hnd2, hdis⟩ := hnd
  intro hmem
  rcases ha with ha | ha
  · exact hdis ha (List.mem_append_left _ hmem)
  · rw [List.nodup_append] at hnd2
    exact hnd2.2.2 hmem ha

/-! ### Auxiliary facts: unsigned negation -/

theorem to_difference_type_size_t_neg (n : Nat) (hn : n ≤ PTRDIFF_MAX) :
    to_difference_type (size_t_neg n) = -(n : Int) := by
  unfold PTRDIFF_MAX at hn
  unfold to_difference_type size_t_neg
  have h1 : n % 2 ^ 64 = n := Nat.mod_eq_of_lt (by omega)
  rw [h1]
  by_cases h0 : n = 0
  · subst h0; simp
  · have h2 : (2 ^ 64 - n) % 2 ^ 64 = 2 ^ 64 - n := Nat.mod_eq_of_lt (by omega)
    have h3 : ¬ (2 ^ 64 - n < 2 ^ 63) := by omega
    rw [Nat.mod_mod, h2, if_neg h3]
    omega

/-- C1: `at(i)` signals out-of-range exactly when `i >= size()`, and for `i < size()`
it returns, without error, the element held by slot `i`. -/
theorem at_bounds_contract (self : ptr_vector) (i : Nat) :
    (self.at i = .error exception.out_of_range ↔ self.size ≤ i) ∧
    (∀ hi : i < self.size, self.at i = .ok (self._vec.get ⟨i, hi⟩)) := by
  unfold ptr_vector.at ptr_vector.size
  by_cases h : i < self._vec.length
  · simp [h]
  · simp [h]; omega

theorem at_bounds_contract_witness :
    (ptr_vector.mk [3, 4]).at 1 = .ok 4 :=
  (at_bounds_contract (ptr_vector.mk [3, 4]) 1).2 (by decide)

/-- C2: for every valid index `i < size()`, `operator[](i)` returns the same element
as `at(i)`; on a non-empty store `front()` is `at(0)` and `back()` is `at(size()-1)`. -/
theorem subscript_matches_at (self : ptr_vector) :
    (∀ i, i < self.size → ∃ r, self.subscript i = some r ∧ self.at i = .ok r) ∧
    (0 < self.size →
      (∃ r, self.front = some r ∧ self.at 0 = .ok r) ∧
      (∃ r, self.back = some r ∧ self.at (self.size - 1) = .ok r)) := by
  obtain ⟨vec⟩ := self
  simp only [ptr_vector.subscript, ptr_vector.at, ptr_vector.size, ptr_vector.front,
    ptr_vector.back]
  refine ⟨?_, ?_⟩
  · intro i hi
    exact ⟨vec.get ⟨i, hi⟩, by simp [List.getElem?_eq_getElem hi], by simp [hi]⟩
  · intro hpos
    have hne : vec ≠ [] := List.ne_nil_of_length_pos hpos
    refine ⟨⟨vec.get ⟨0, hpos⟩, ?_, by simp [hpos]⟩,
            ⟨vec.get ⟨vec.length - 1, by omega⟩, ?_, ?_⟩⟩
    · cases vec with
      | nil => exact absurd rfl hne
      | cons a t => simp
    · rw [List.getLast?_eq_getLast _ hne, List.getLast_eq_getElem]
      simp
    · have : vec.length - 1 < vec.length := by omega
      simp [this]

theorem subscript_matches_at_witness :
    (∃ r, (ptr_vector.mk [3, 4]).subscript 1 = some r ∧ (ptr_vector.mk [3, 4]).at 1 = .ok r) ∧
    (∃ r, (ptr_vector.mk [3, 4]).front = some r ∧ (ptr_vector.mk [3, 4]).at 0 = .ok r) ∧
    (∃ r, (ptr_vector.mk [3, 4]).back = some r ∧
      (ptr_vector.mk [3, 4]).at ((ptr_vector.mk [3, 4]).size - 1) = .ok r) :=
  ⟨(subscript_matches_at (ptr_vector.mk [3, 4])).1 1 (by decide),
   (subscript_matches_at (ptr_vector.mk [3, 4])).2 (by decide)⟩

/-- C3: starting from an empty store, `push_back(5)`, `push_back(7)`,
`insert(begin()+1, 6)` gives the elements `[5,6,7]`; `erase(begin())` then gives
`[6,7]`; `at(5)` on that store signals out-of-range (`at` only reads the store, which
the next step goes on from); `resize(4, 0)` then gives `[6,7,0,0]`. -/
theorem concrete_scenario :
    (do
      let s0 := ptr_vector.empty_store
      let (h1, s1) := s0.push_back (Heap.empty : Heap Int) 5
      let (h2, s2) := s1.push_back h1 7
      let (h3, s3, _) ← s2.insert h2 (s2.begin.add 1) 6
      let (h4, s4, _) ← s3.erase h3 s3.begin
      let thrown := s4.at 5
      let (h5, s5) ← s4.resize h4 4 0
      pure (s3.values h3, s4.values h4, thrown, s5.values h5) : Option _)
    = some ([some 5, some 6, some 7], [some 6, some 7],
            .error exception.out_of_range, [some 6, some 7, some 0, some 0]) := by
  rfl

/-- C4: `resize(count, p)` always returns and leaves exactly `count` slots. When
`count == size()` nothing changes; when `count = size()+k` the old handles are
followed by `k` new elements, each equal in value to `p`; when `count = size()-k`
the first `count` handles stay, in order. For a store that owns its elements the
values read accordingly. -/
theorem resize_spec {T : Type} (h : Heap T) (self : ptr_vector) (count : Nat) (value : T) :
    ∃ h1 self1, self.resize h count value = some (h1, self1) ∧
      self1.size = count ∧
      (count = self.size → h1 = h ∧ self1 = self) ∧
      (∀ k, count = self.size + k →
        self1._vec = self._vec ++ List.range' (h.brk + 1) k ∧
        (self1._vec.drop self.size).map h1.mem = List.replicate k (some value) ∧
        (self.owned h → self1.values h1 = self.values h ++ List.replicate k (some value))) ∧
      (∀ k, count + k = self.size →
        self1._vec = self._vec.take count ∧
        (self.owned h → self1.values h1 = (self.values h).take count)) := by
  obtain ⟨vec⟩ := self
  simp only [ptr_vector.size, ptr_vector.values, ptr_vector.owned]
  by_cases hgt : vec.length > count
  · -- shrinking
    have hsplit : vec = vec.take count ++ vec.drop count := (List.take_append_drop count vec).symm
    have hlen : vec.length - count = (vec.drop count).length := by simp
    have hres : ptr_vector.resize h { _vec := vec } count value =
        some (h.delete_all (vec.drop count).reverse, { _vec := vec.take count }) := by
      unfold ptr_vector.resize
      simp only [hgt, if_true]
      have key := resize_shrink_append (vec.take count) (vec.drop count) h
      rw [List.take_append_drop, ← hlen] at key
      exact key
    refine ⟨_, _, hres, ?_, ?_, ?_, ?_⟩
    · simp; omega
    · intro hc; omega
    · intro k hk; omega
    · intro k _
      refine ⟨rfl, ?_⟩
      rintro ⟨hnd, _⟩
      rw [← List.map_take]
      apply List.map_congr_left
      intro a ha
      have hdis : a ∉ (vec.drop count).reverse := by
        rw [hsplit, List.nodup_append] at hnd
        intro hmem
        exact hnd.2.2 ha (List.mem_reverse.mp hmem)
      exact Heap.delete_all_mem_of_not_mem _ h a hdis
  · -- growing (or no change)
    obtain ⟨e1, _, _, _, e5, e6⟩ := resize_grow_spec value (count - vec.length) h { _vec := vec }
    have hres : ptr_vector.resize h { _vec := vec } count value =
        some (ptr_vector.resize_grow value (count - vec.length) h { _vec := vec }) := by
      unfold ptr_vector.resize
      simp only [hgt, if_false]
    refine ⟨_, _, hres, ?_, ?_, ?_, ?_⟩
    · rw [e1]; simp; omega
    · intro hc
      rw [hc]
      simp [ptr_vector.resize_grow]
    · intro k hk
      have hk2 : count - vec.length = k := by omega
      rw [hk2] at e1 e5 e6 ⊢
      change _ = vec ++ _ at e1
      rw [e1]
      have hnew : List.map (ptr_vector.resize_grow value k h { _vec := vec }).1.mem
          (List.range' (h.brk + 1) k) = List.replicate k (some value) := by
        rw [List.eq_replicate_iff]
        refine ⟨by simp, ?_⟩
        intro b hb
        obtain ⟨a, ha, rfl⟩ := List.mem_map.mp hb
        rw [List.mem_range'_1] at ha
        exact e6 a (by omega) (by omega)
      refine ⟨rfl, ?_, ?_⟩
      · rw [List.drop_left]; exact hnew
      · rintro ⟨_, hall⟩
        rw [List.map_append, hnew]
        congr 1
        apply List.map_congr_left
        intro a ha
        exact e5 a (hall a ha).2.1
    · intro k hk
      have hk2 : count = vec.length := by omega
      subst hk2
      rw [e1]
      simp [ptr_vector.resize_grow]

theorem resize_spec_witness :
    (∃ h1 self1,
      ptr_vector.resize (ptr_vector.push_back (Heap.empty : Heap Int) { _vec := [] } 5).1
        (ptr_vector.push_back (Heap.empty : Heap Int) { _vec := [] } 5).2 3 0 = some (h1, self1) ∧
      self1.values h1 = [some 5, some 0, some 0]) ∧
    (∃ h1 self1,
      ptr_vector.resize (ptr_vector.resize_grow (9 : Int) 3 Heap.empty { _vec := [] }).1
        (ptr_vector.resize_grow (9 : Int) 3 Heap.empty { _vec := [] }).2 1 0 = some (h1, self1) ∧
      self1.values h1 = [some 9]) := by
  constructor
  · obtain ⟨h1, self1, e, _, _, hg, _⟩ :=
      resize_spec (ptr_vector.push_back (Heap.empty : Heap Int) { _vec := [] } 5).1
        (ptr_vector.push_back (Heap.empty : Heap Int) { _vec := [] } 5).2 3 0
    exact ⟨h1, self1, e, (hg 2 (by decide)).2.2 (by decide)⟩
  · obtain ⟨h1, self1, e, _, _, _, hs⟩ :=
      resize_spec (ptr_vector.resize_grow (9 : Int) 3 Heap.empty { _vec := [] }).1
        (ptr_vector.resize_grow (9 : Int) 3 Heap.empty { _vec := [] }).2 1 0
    exact ⟨h1, self1, e, (hs 2 (by decide)).2 (by decide)⟩

/-- C5: `push_back_own(nullptr)` leaves the sequence, hence the size, unchanged; for
a non-null `p`, `push_back_own(p)` grows the size by exactly one, leaves every
previous slot as it was, and the new last slot holds `p` itself: the free store is
untouched, no element is constructed. -/
theorem push_back_own_spec {T : Type} (h : Heap T) (self : ptr_vector) (p : pointer) :
    self.push_back_own h nullptr = (h, self) ∧
    (p ≠ nullptr →
      (self.push_back_own h p).1 = h ∧
      (self.push_back_own h p).2.size = self.size + 1 ∧
      (self.push_back_own h p).2._vec.take self.size = self._vec ∧
      (self.push_back_own h p).2.back = some p ∧
      (self.push_back_own h p).2._vec = self._vec ++ [p]) := by
  refine ⟨by simp [ptr_vector.push_back_own], ?_⟩
  intro hp
  simp [ptr_vector.push_back_own, hp, ptr_vector.size, ptr_vector.back]

theorem push_back_own_spec_witness :
    (ptr_vector.push_back_own (Heap.empty : Heap Int) { _vec := [4, 2] } 9).1 = Heap.empty ∧
    (ptr_vector.push_back_own (Heap.empty : Heap Int) { _vec := [4, 2] } 9).2.size = 2 + 1 ∧
    (ptr_vector.push_back_own (Heap.empty : Heap Int) { _vec := [4, 2] } 9).2._vec.take 2 = [4, 2] ∧
    (ptr_vector.push_back_own (Heap.empty : Heap Int) { _vec := [4, 2] } 9).2.back = some 9 ∧
    (ptr_vector.push_back_own (Heap.empty : Heap Int) { _vec := [4, 2] } 9).2._vec = [4, 2, 9] :=
  (push_back_own_spec (Heap.empty : Heap Int) { _vec := [4, 2] } 9).2 (by decide)

/-- C6: after move-constructing `b` from `a`, or move-assigning `a` to a store `b`,
`a` is empty, `b` has the size `a` had and holds exactly the handles `a` held, in
the same order, and the number of element constructions is unchanged. -/
theorem move_transfers {T : Type} (h : Heap T) (a b : ptr_vector) :
    ((ptr_vector.move_construct h a).2.2.empty = true ∧
      (ptr_vector.move_construct h a).2.2.size = 0 ∧
      (ptr_vector.move_construct h a).2.1.size = a.size ∧
      (ptr_vector.move_construct h a).2.1._vec = a._vec ∧
      (ptr_vector.move_construct h a).1.constructions = h.constructions) ∧
    ((ptr_vector.move_assign h b a).2.2.empty = true ∧
      (ptr_vector.move_assign h b a).2.2.size = 0 ∧
      (ptr_vector.move_assign h b a).2.1.size = a.size ∧
      (ptr_vector.move_assign h b a).2.1._vec = a._vec ∧
      (ptr_vector.move_assign h b a).1.constructions = h.constructions) := by
  refine ⟨⟨rfl, rfl, rfl, rfl, rfl⟩, ⟨rfl, rfl, rfl, rfl, ?_⟩⟩
  exact Heap.delete_all_constructions b._vec h

/-- C7: over the mutable pair `begin()`/`end()` the loop `it != end(); ++it` stops
after exactly `size()` increments (it needs `size()+1` comparisons, no fewer) and
`*it` yields the elements of slots `0, 1, ..., size()-1` in that order, whose values
are the values of the store. Over the read-only pair `cbegin()`/`cend()` the
comparison `it != cend()` yields no value, so the same loop yields no result,
whatever the store and however long it is left to run. -/
theorem traversal_mutable_and_read_only {T : Type} (h : Heap T) (self : ptr_vector)
    (fuel : Nat) :
    traverse self self.end fuel self.begin =
      (if self.size < fuel then some self._vec else none) ∧
    (traverse self self.end (self.size + 1) self.begin).map (fun out => out.map h.mem) =
      some (self.values h) ∧
    const_traverse self self.cend fuel self.cbegin = none := by
  have key : ∀ n, traverse self self.end n self.begin =
      (if self.size < n then some self._vec else none) := by
    intro n
    have key := traverse_from self n 0 (Nat.zero_le _)
    simpa [ptr_vector.begin, ptr_vector.size] using key
  refine ⟨key fuel, ?_, ?_⟩
  · rw [key]; simp [ptr_vector.values]
  · cases fuel with
    | zero => rfl
    | succ fuel =>
      have hne : ∀ a b : const_iterator, a.ne b = none := fun _ _ => rfl
      simp [const_traverse, hne]

/-- C8: for a position `p <= size()`, `insert(begin()+p, v)` yields the handles
`xs[0..p)`, one new element, `xs[p..)`; the new element holds a copy of `v`; the
size grows by exactly one; the returned iterator is at index `p` and dereferences
to the new element. For a store that owns its elements the values read
`xs[0..p) ++ [v] ++ xs[p..)`. -/
theorem insert_spec {T : Type} (h : Heap T) (self : ptr_vector) (p : Nat) (value : T)
    (hp : p ≤ self.size) (hmax : self.size ≤ PTRDIFF_MAX) :
    ∃ h1 self1 it, self.insert h (self.begin.add p) value = some (h1, self1, it) ∧
      self1._vec = self._vec.take p ++ [h.brk + 1] ++ self._vec.drop p ∧
      self1.size = self.size + 1 ∧
      it._itr = (p : Int) ∧
      (∃ r, it.deref self1 = some r ∧ r = h.brk + 1 ∧ h1.mem r = some value) ∧
      (self.owned h →
        self1.values h1 = (self.values h).take p ++ [some value] ++ (self.values h).drop p) := by
  unfold ptr_vector.size at hp hmax
  rw [begin_add_itr self p (le_trans hp hmax), insert_at h self p value hp]
  refine ⟨_, _, _, rfl, by simp, ?_, rfl, ?_, ?_⟩
  · simp [ptr_vector.size]; omega
  · refine ⟨h.brk + 1, ?_, rfl, by simp [Heap.new]⟩
    have hlen : (self._vec.take p).length = p := by simp [hp]
    simp only [detail._ptr_vec_itr.deref, Int.toNat_ofNat, Int.ofNat_zero_le, if_true]
    rw [List.getElem?_append_right (by omega)]
    simp [hlen]
  · rintro ⟨_, hall⟩
    have hold : self._vec.map (h.new value).1.mem = self._vec.map h.mem :=
      values_of_le_brk h _ self._vec (fun a ha => Heap.new_mem_of_le h value a ha)
        (fun a ha => (hall a ha).2.1)
    simp only [ptr_vector.values, List.map_append, List.map_cons, List.map_take, List.map_drop,
      hold]
    simp [Heap.new]

theorem insert_spec_witness :
    ∃ h1 self1 it,
      ptr_vector.insert (ptr_vector.resize_grow (9 : Int) 2 Heap.empty { _vec := [] }).1
        (ptr_vector.resize_grow (9 : Int) 2 Heap.empty { _vec := [] }).2
        ((ptr_vector.resize_grow (9 : Int) 2 Heap.empty { _vec := [] }).2.begin.add 1) 4
        = some (h1, self1, it) ∧
      it._itr = 1 ∧ self1.values h1 = [some 9, some 4, some 9] := by
  obtain ⟨h1, self1, it, e, _, _, hit, _, hv⟩ :=
    insert_spec (ptr_vector.resize_grow (9 : Int) 2 Heap.empty { _vec := [] }).1
      (ptr_vector.resize_grow (9 : Int) 2 Heap.empty { _vec := [] }).2 1 4
      (by decide) (by decide)
  exact ⟨h1, self1, it, e, hit, hv (by decide)⟩

/-- C9: for a position `p <= size()`, `insert(pos at p, c, v)` always returns and
yields the handles `xs[0..p)`, `c` new elements, `xs[p..)`, the original handles in
their original order; each new element holds a copy of `v`; the returned iterator is
at index `p`: it refers to the first element of the inserted run when `c > 0`, and
nothing has changed when `c == 0`. For a store that owns its elements the values
read `xs[0..p) ++ (c copies of v) ++ xs[p..)`. -/
theorem insert_count_spec {T : Type} (h : Heap T) (self : ptr_vector) (p count : Nat)
    (value : T) (hp : p ≤ self.size) (hmax : self.size ≤ PTRDIFF_MAX) :
    ∃ h1 self1 it, self.insert_count h (self.cbegin.add p) count value = some (h1, self1, it) ∧
      self1._vec =
        self._vec.take p ++ (List.range' (h.brk + 1) count).reverse ++ self._vec.drop p ∧
      ((self1._vec.drop p).take count).map h1.mem = List.replicate count (some value) ∧
      self1.size = self.size + count ∧
      it._itr = (p : Int) ∧
      (0 < count → ∃ r, it.deref self1 = some r ∧ r = h.brk + count ∧ h1.mem r = some value) ∧
      (count = 0 → h1 = h ∧ self1 = self) ∧
      (self.owned h →
        self1.values h1 =
          (self.values h).take p ++ List.replicate count (some value) ++ (self.values h).drop p) := by
  unfold ptr_vector.size at hp hmax
  have hpm : p ≤ PTRDIFF_MAX := le_trans hp hmax
  have hpos : self.begin.add (to_size_t (std_distance self.cbegin (self.cbegin.add p))) =
      { _itr := (p : Int) } := by
    rw [cbegin_add_citr self p hpm]
    have : std_distance self.cbegin { _citr := (p : Int) } = (p : Int) := by
      simp [std_distance, detail._ptr_vec_const_itr.distance, ptr_vector.cbegin]
    rw [this, to_size_t_of_le p hpm, begin_add_itr self p hpm]
  obtain ⟨h1, e, _, e5, e6, e0⟩ := insert_count_loop_spec value count h self p hp
  have hlen : (self._vec.take p).length = p := by simp [hp]
  have hrun : ((self._vec.take p ++ (List.range' (h.brk + 1) count).reverse
      ++ self._vec.drop p).drop p).take count = (List.range' (h.brk + 1) count).reverse := by
    rw [List.append_assoc, List.drop_append_of_le_length (by omega)]
    have : List.drop p (List.take p self._vec) = [] := by
      apply List.drop_eq_nil_of_le; omega
    rw [this, List.nil_append, List.take_append_of_le_length (by simp)]
    apply List.take_of_length_le; simp
  have hnew : (List.range' (h.brk + 1) count).reverse.map h1.mem =
      List.replicate count (some value) := by
    rw [List.eq_replicate_iff]
    refine ⟨by simp, ?_⟩
    intro b hb
    obtain ⟨a, ha, rfl⟩ := List.mem_map.mp hb
    rw [List.mem_reverse, List.mem_range'_1] at ha
    exact e6 a (by omega) (by omega)
  refine ⟨h1, _, _, ?_, rfl, ?_, ?_, rfl, ?_, ?_, ?_⟩
  · unfold ptr_vector.insert_count
    rw [hpos]; exact e
  · rw [hrun]; exact hnew
  · simp [ptr_vector.size]; omega
  · intro hc
    refine ⟨h.brk + count, ?_, rfl, e6 _ (by omega) (le_refl _)⟩
    simp only [detail._ptr_vec_itr.deref, Int.toNat_ofNat, Int.ofNat_zero_le, if_true]
    rw [List.append_assoc, List.getElem?_append_right (by omega)]
    obtain ⟨c, rfl⟩ : ∃ c, count = c + 1 := ⟨count - 1, by omega⟩
    simp [hlen, List.range'_concat]
    rw [Nat.add_assoc, Nat.add_comm 1 c]
  · intro hc
    refine ⟨e0 hc, ?_⟩
    subst hc
    simp
  · rintro ⟨_, hall⟩
    have hold : self._vec.map h1.mem = self._vec.map h.mem :=
      values_of_le_brk h _ self._vec e5 (fun a ha => (hall a ha).2.1)
    simp only [ptr_vector.values, List.map_append, List.map_take, List.map_drop, hold, hnew]

theorem insert_count_spec_witness :
    ∃ h1 self1 it,
      ptr_vector.insert_count (ptr_vector.resize_grow (9 : Int) 2 Heap.empty { _vec := [] }).1
        (ptr_vector.resize_grow (9 : Int) 2 Heap.empty { _vec := [] }).2
        ((ptr_vector.resize_grow (9 : Int) 2 Heap.empty { _vec := [] }).2.cbegin.add 1) 3 4
        = some (h1, self1, it) ∧
      it._itr = 1 ∧
      (∃ r, it.deref self1 = some r ∧ r = 2 + 3 ∧ h1.mem r = some 4) ∧
      self1.values h1 = [some 9, some 4, some 4, some 4, some 9] := by
  obtain ⟨h1, self1, it, e, _, _, _, hit, hfirst, _, hv⟩ :=
    insert_count_spec (ptr_vector.resize_grow (9 : Int) 2 Heap.empty { _vec := [] }).1
      (ptr_vector.resize_grow (9 : Int) 2 Heap.empty { _vec := [] }).2 1 3 4
      (by decide) (by decide)
  exact ⟨h1, self1, it, e, hit, hfirst (by decide), hv (by decide)⟩

/-- C10: for indices `f <= l <= size()`, `erase(begin()+f, begin()+l)` yields the
handles `xs[0..f) ++ xs[l..)`, the size shrinks by exactly `l-f`, and the returned
iterator is at index `f`: it refers to the element that followed the erased range,
and equals `end()` when `l == size()`. For a store that owns its elements the values
read accordingly. `erase(pos)` at an index `f < size()` is `erase(f, f+1)`. -/
theorem erase_spec {T : Type} (h : Heap T) (self : ptr_vector) (f l : Nat)
    (hfl : f ≤ l) (hl : l ≤ self.size) (hmax : self.size ≤ PTRDIFF_MAX) :
    ∃ h1 self1 it,
      self.erase_range h (self.begin.add f) (self.begin.add l) = some (h1, self1, it) ∧
      self1._vec = self._vec.take f ++ self._vec.drop l ∧
      self1.size + (l - f) = self.size ∧
      it._itr = (f : Int) ∧
      it.deref self1 = self._vec[l]? ∧
      (l = self.size → it = self1.end) ∧
      (self.owned h → self1.values h1 = (self.values h).take f ++ (self.values h).drop l) ∧
      (f < self.size →
        self.erase h (self.begin.add f) =
          self.erase_range h (self.begin.add f) (self.begin.add (f + 1))) := by
  unfold ptr_vector.size at hl hmax ⊢
  have hlm : l ≤ PTRDIFF_MAX := le_trans hl hmax
  have hfm : f ≤ PTRDIFF_MAX := le_trans hfl hlm
  rw [begin_add_itr self f hfm, begin_add_itr self l hlm, erase_range_at h self f l hfl hl]
  have hlen : (self._vec.take f).length = f := by simp; omega
  refine ⟨_, _, _, rfl, rfl, ?_, rfl, ?_, ?_, ?_, ?_⟩
  · simp; omega
  · simp only [detail._ptr_vec_itr.deref, Int.toNat_ofNat, Int.ofNat_zero_le, if_true]
    rw [List.getElem?_append_right (by omega)]
    simp [hlen]
  · intro hle
    simp [ptr_vector.end]; omega
  · rintro ⟨hnd, _⟩
    simp only [ptr_vector.values, List.map_append, ← List.map_take, ← List.map_drop]
    congr 1
    · apply List.map_congr_left
      intro a ha
      exact Heap.delete_all_mem_of_not_mem _ h a
        (not_mem_erased_of_nodup self._vec f l hfl hnd a (Or.inl ha))
    · apply List.map_congr_left
      intro a ha
      exact Heap.delete_all_mem_of_not_mem _ h a
        (not_mem_erased_of_nodup self._vec f l hfl hnd a (Or.inr ha))
  · intro hf
    have hf1 : f + 1 ≤ PTRDIFF_MAX := le_trans hf hmax
    rw [begin_add_itr self (f + 1) hf1, erase_at h self f hf,
      erase_range_at h self f (f + 1) (Nat.le_succ f) hf]
    have h1 : (self._vec.drop f).take (f + 1 - f) = [self._vec.get ⟨f, hf⟩] := by
      have h0 : f + 1 - f = 1 := by omega
      rw [h0, List.drop_eq_getElem_cons hf]
      rfl
    rw [h1]
    rfl

theorem erase_spec_witness :
    ∃ h1 self1 it,
      ptr_vector.erase_range (ptr_vector.resize_grow (9 : Int) 4 Heap.empty { _vec := [] }).1
        (ptr_vector.resize_grow (9 : Int) 4 Heap.empty { _vec := [] }).2
        ((ptr_vector.resize_grow (9 : Int) 4 Heap.empty { _vec := [] }).2.begin.add 1)
        ((ptr_vector.resize_grow (9 : Int) 4 Heap.empty { _vec := [] }).2.begin.add 3)
        = some (h1, self1, it) ∧
      self1._vec = [1, 4] ∧ it._itr = 1 ∧ it.deref self1 = some 4 ∧
      self1.values h1 = [some 9, some 9] := by
  obtain ⟨h1, self1, it, e, hv, _, hit, hd, _, hvals, _⟩ :=
    erase_spec (ptr_vector.resize_grow (9 : Int) 4 Heap.empty { _vec := [] }).1
      (ptr_vector.resize_grow (9 : Int) 4 Heap.empty { _vec := [] }).2 1 3
      (by decide) (by decide) (by decide)
  exact ⟨h1, self1, it, e, hv, hit, hd, hvals (by decide)⟩

/-- C11: `reset_at(i, v)`, and `emplace_reset_at(i, args)` alike, signals out-of-range
exactly when `i >= size()`, and then neither the store nor the free store has
changed; when `i < size()` the call does not throw, slot `i` holds a newly
constructed element, the size is unchanged and every slot `j != i` holds the handle
it held before. For a store that owns its elements the new element is none of the
old ones and its value is `v`. -/
theorem reset_at_spec {T : Type} (h : Heap T) (self : ptr_vector) (i : Nat) (value : T) :
    self.emplace_reset_at h i value = self.reset_at h i value ∧
    ((self.reset_at h i value).2.2 = .error exception.out_of_range ↔ self.size ≤ i) ∧
    (self.size ≤ i →
      (self.reset_at h i value).1 = h ∧ (self.reset_at h i value).2.1 = self) ∧
    (i < self.size →
      (self.reset_at h i value).2.2 = .ok () ∧
      (self.reset_at h i value).2.1.size = self.size ∧
      (self.reset_at h i value).2.1._vec[i]? = some (h.brk + 1) ∧
      (∀ j, j ≠ i → (self.reset_at h i value).2.1._vec[j]? = self._vec[j]?) ∧
      (self.reset_at h i value).1.constructions = h.constructions + 1 ∧
      (self.owned h →
        h.brk + 1 ∉ self._vec ∧
        (self.reset_at h i value).1.mem (h.brk + 1) = some value)) := by
  refine ⟨rfl, ?_, ?_, ?_⟩
  · unfold ptr_vector.reset_at ptr_vector.size
    by_cases hi : i < self._vec.length
    · simp [hi]
    · simp [hi]; omega
  · intro hi
    unfold ptr_vector.size at hi
    have hn : ¬ i < self._vec.length := by omega
    simp [ptr_vector.reset_at, hn]
  · intro hi
    unfold ptr_vector.size at hi
    have hfresh : ∀ a ∈ self._vec, a ≤ h.brk → a ≠ h.brk + 1 :=
      fun a _ ha => Nat.ne_of_lt (Nat.lt_succ_of_le ha)
    simp only [ptr_vector.reset_at, hi, dite_true, ptr_vector.size, List.length_set]
    refine ⟨trivial, trivial, ?_, ?_, ?_, ?_⟩
    · simp [Heap.new, hi]
    · intro j hj
      rw [List.getElem?_set_ne (Ne.symm hj)]
    · rw [Heap.delete_constructions]; rfl
    · rintro ⟨_, hall⟩
      have hnot : h.brk + 1 ∉ self._vec := by
        intro hmem
        exact hfresh _ hmem (hall _ hmem).2.1 rfl
      refine ⟨hnot, ?_⟩
      have hne : h.brk + 1 ≠ self._vec.get ⟨i, hi⟩ := by
        intro heq
        exact hnot (heq ▸ List.get_mem _ _ _)
      rw [Heap.delete_mem_of_ne _ _ _ hne]
      simp [Heap.new]

theorem reset_at_spec_witness :
    ((ptr_vector.reset_at (ptr_vector.resize_grow (9 : Int) 3 Heap.empty { _vec := [] }).1
        (ptr_vector.resize_grow (9 : Int) 3 Heap.empty { _vec := [] }).2 5 4).1 =
        (ptr_vector.resize_grow (9 : Int) 3 Heap.empty { _vec := [] }).1 ∧
      (ptr_vector.reset_at (ptr_vector.resize_grow (9 : Int) 3 Heap.empty { _vec := [] }).1
        (ptr_vector.resize_grow (9 : Int) 3 Heap.empty { _vec := [] }).2 5 4).2.1 =
        { _vec := [1, 2, 3] }) ∧
    ((ptr_vector.reset_at (ptr_vector.resize_grow (9 : Int) 3 Heap.empty { _vec := [] }).1
        (ptr_vector.resize_grow (9 : Int) 3 Heap.empty { _vec := [] }).2 1 4).2.1._vec[1]? =
        some 4 ∧
      (ptr_vector.reset_at (ptr_vector.resize_grow (9 : Int) 3 Heap.empty { _vec := [] }).1
        (ptr_vector.resize_grow (9 : Int) 3 Heap.empty { _vec := [] }).2 1 4).1.mem 4 =
        some 4) :=
  ⟨(reset_at_spec (ptr_vector.resize_grow (9 : Int) 3 Heap.empty { _vec := [] }).1
      (ptr_vector.resize_grow (9 : Int) 3 Heap.empty { _vec := [] }).2 5 4).2.2.1 (by decide),
   ((reset_at_spec (ptr_vector.resize_grow (9 : Int) 3 Heap.empty { _vec := [] }).1
      (ptr_vector.resize_grow (9 : Int) 3 Heap.empty { _vec := [] }).2 1 4).2.2.2
        (by decide)).2.2.1,
   (((reset_at_spec (ptr_vector.resize_grow (9 : Int) 3 Heap.empty { _vec := [] }).1
      (ptr_vector.resize_grow (9 : Int) 3 Heap.empty { _vec := [] }).2 1 4).2.2.2
        (by decide)).2.2.2.2.2 (by decide)).2⟩

/-- C12: for a position `p <= size()` the body of `insert_own(begin()+p, q)` does to
the store what the claim says: nothing for `nullptr`, and for a non-null `q` it leaves
the handles `hs[0..p)`, `q` itself, `hs[p..)`, the free store untouched. But the call,
of a function returning `iterator` whose body has no `return` statement, has no
defined outcome on either path, so it does not leave the store in any state. -/
theorem insert_own_call_undefined {T : Type} (h : Heap T) (self : ptr_vector) (p : Nat)
    (q : pointer) (hp : p ≤ self.size) (hmax : self.size ≤ PTRDIFF_MAX) :
    self.insert_own h (self.begin.add p) nullptr = none ∧
    self.insert_own h (self.begin.add p) q = none ∧
    (self.insert_own_body h (self.begin.add p) nullptr).map (fun r => (r.1, r.2.1)) =
      some (h, self) ∧
    (q ≠ nullptr →
      (self.insert_own_body h (self.begin.add p) q).map (fun r => (r.1, r.2.1)) =
        some (h, { _vec := self._vec.take p ++ [q] ++ self._vec.drop p })) := by
  unfold ptr_vector.size at hp hmax
  have hle : (p : Int) ≤ (self._vec.length : Int) := by exact_mod_cast hp
  rw [begin_add_itr self p (le_trans hp hmax)]
  have hnull : self.insert_own_body h { _itr := (p : Int) } nullptr = some (h, self, []) := by
    simp [ptr_vector.insert_own_body]
  refine ⟨?_, ?_, ?_, ?_⟩
  · simp [ptr_vector.insert_own, hnull, return_value]
  · by_cases hq : q = nullptr
    · rw [hq]; simp [ptr_vector.insert_own, hnull, return_value]
    · simp [ptr_vector.insert_own, ptr_vector.insert_own_body, hq, vector_insert, hle,
        return_value]
  · rw [hnull]; rfl
  · intro hq
    simp [ptr_vector.insert_own_body, hq, vector_insert, hle]

theorem insert_own_call_undefined_witness :
    ptr_vector.insert_own (Heap.empty : Heap Int) { _vec := [4, 2] }
      ((ptr_vector.mk [4, 2]).begin.add 1) 9 = none ∧
    (ptr_vector.insert_own_body (Heap.empty : Heap Int) { _vec := [4, 2] }
      ((ptr_vector.mk [4, 2]).begin.add 1) 9).map (fun r => (r.1, r.2.1)) =
        some (Heap.empty, { _vec := [4, 9, 2] }) :=
  ⟨(insert_own_call_undefined (Heap.empty : Heap Int) { _vec := [4, 2] } 1 9 (by decide)
      (by decide)).2.1,
   (insert_own_call_undefined (Heap.empty : Heap Int) { _vec := [4, 2] } 1 9 (by decide)
      (by decide)).2.2.2 (by decide)⟩

/-- C13: `a.swap(b)` hands `b`, a `ptr_vector`, to `std::vector::swap`, which takes a
vector; no vector reference can be had from it, so the call yields nothing, for any
two stores; in particular it does not leave `a` with the handles of `b` and `b` with
those of `a`. -/
theorem swap_yields_nothing {T : Type} (h : Heap T) (a b : ptr_vector) :
    a.swap h b = none ∧ a.swap h b ≠ some (h, { _vec := b._vec }, { _vec := a._vec }) := by
  have hn : a.swap h b = none := rfl
  exact ⟨hn, by rw [hn]; exact fun hc => Option.noConfusion hc⟩

/-- C20: whatever the store, the position and the pointer, a call of `insert_own`
hands back no iterator value: its body executes no `return` statement on any path.
On the null path the body executes nothing and leaves the store as it was; on the
non-null path, at a position within `[begin, end]`, it inserts the pointer there and
builds an iterator to the new slot, which is discarded. -/
theorem insert_own_returns_no_iterator {T : Type} (h : Heap T) (self : ptr_vector)
    (itr : iterator) (value : pointer) :
    self.insert_own h itr value = none ∧
    (∀ r, self.insert_own_body h itr value = some r → return_value r.2.2 = none) ∧
    self.insert_own_body h itr nullptr = some (h, self, []) ∧
    (value ≠ nullptr → 0 ≤ itr._itr → itr._itr ≤ (self.size : Int) →
      self.insert_own_body h itr value =
        some (h,
          { _vec := self._vec.take itr._itr.toNat ++ value :: self._vec.drop itr._itr.toNat },
          [statement_effect.discarded itr]) ∧
      itr.deref { _vec := self._vec.take itr._itr.toNat ++ value ::
        self._vec.drop itr._itr.toNat } = some value) := by
  have hbody : ∀ r, self.insert_own_body h itr value = some r → return_value r.2.2 = none := by
    intro r hr
    unfold ptr_vector.insert_own_body at hr
    split at hr
    · split at hr
      · cases hr; rfl
      · exact Option.noConfusion hr
    · cases hr; rfl
  refine ⟨?_, hbody, by simp [ptr_vector.insert_own_body], ?_⟩
  · unfold ptr_vector.insert_own
    cases hb : self.insert_own_body h itr value with
    | none => rfl
    | some r =>
      obtain ⟨h1, self1, executed⟩ := r
      have hn := hbody _ hb
      simp only at hn
      simp only [hn]
  · intro hv h0 h1
    unfold ptr_vector.size at h1
    refine ⟨by simp [ptr_vector.insert_own_body, hv, vector_insert, h0, h1], ?_⟩
    have hk : itr._itr.toNat ≤ self._vec.length := by omega
    have hlen : (self._vec.take itr._itr.toNat).length = itr._itr.toNat := by simp [hk]
    simp only [detail._ptr_vec_itr.deref, h0, if_true]
    rw [List.getElem?_append_right (by omega)]
    simp [hlen]

theorem insert_own_returns_no_iterator_witness :
    ptr_vector.insert_own_body (Heap.empty : Heap Int) { _vec := [4, 2] } { _itr := 1 } 9 =
      some (Heap.empty, { _vec := [4, 9, 2] }, [statement_effect.discarded { _itr := 1 }]) ∧
    (detail._ptr_vec_itr.mk 1).deref { _vec := [4, 9, 2] } = some 9 :=
  (insert_own_returns_no_iterator (Heap.empty : Heap Int) { _vec := [4, 2] } { _itr := 1 }
    9).2.2.2 (by decide) (by decide) (by decide)

/-- C17: for the mutable family `--it` leaves the iterator one position down and
returns it, `it--` returns the iterator as it was and leaves it one position down,
and `++` followed by `--` is back at the original position. For the read-only family
`--it` and `it--` move the iterator one position up, not down, so `++` followed by
`--` ends two positions above the original one. -/
theorem decrement_mutable_and_read_only (p : Int) :
    ((detail._ptr_vec_itr.mk p).pre_dec = { _itr := p - 1 } ∧
      (detail._ptr_vec_itr.mk p).post_dec = ({ _itr := p }, { _itr := p - 1 }) ∧
      (detail._ptr_vec_itr.mk p).pre_inc.pre_dec = { _itr := p }) ∧
    ((detail._ptr_vec_const_itr.mk p).pre_dec = { _citr := p + 1 } ∧
      (detail._ptr_vec_const_itr.mk p).post_dec = ({ _citr := p }, { _citr := p + 1 }) ∧
      (detail._ptr_vec_const_itr.mk p).pre_inc.pre_dec = { _citr := p + 2 } ∧
      (detail._ptr_vec_const_itr.mk p).pre_dec ≠ { _citr := p - 1 } ∧
      (detail._ptr_vec_const_itr.mk p).post_dec.2 ≠ { _citr := p - 1 } ∧
      (detail._ptr_vec_const_itr.mk p).pre_inc.pre_dec ≠ { _citr := p }) := by
  refine ⟨⟨rfl, rfl, ?_⟩, ⟨rfl, rfl, ?_, ?_, ?_, ?_⟩⟩
  · simp [detail._ptr_vec_itr.pre_inc, detail._ptr_vec_itr.pre_dec]
  · simp only [detail._ptr_vec_const_itr.pre_inc, detail._ptr_vec_const_itr.pre_dec]
    congr 1; omega
  · simp only [detail._ptr_vec_const_itr.pre_dec, ne_eq, detail._ptr_vec_const_itr.mk.injEq]
    omega
  · simp only [detail._ptr_vec_const_itr.post_dec, detail._ptr_vec_const_itr.pre_inc, ne_eq,
      detail._ptr_vec_const_itr.mk.injEq]
    omega
  · simp only [detail._ptr_vec_const_itr.pre_inc, detail._ptr_vec_const_itr.pre_dec, ne_eq,
      detail._ptr_vec_const_itr.mk.injEq]
    omega

/-- C18: for two mutable iterators `a == b` holds exactly when they are at the same
position, and `a != b` is the negation of `a == b`. For two read-only iterators
neither `a != b` nor `a == b` yields a value. -/
theorem equality_mutable_and_read_only (a b : iterator) (ca cb : const_iterator) :
    ((a.eq b = true ↔ a._itr = b._itr) ∧ a.ne b = !(a.eq b)) ∧
    (ca.ne cb = none ∧ ca.eq cb = none) := by
  refine ⟨⟨?_, ?_⟩, ⟨rfl, rfl⟩⟩
  · simp [detail._ptr_vec_itr.eq, detail._ptr_vec_itr.ne]
  · simp [detail._ptr_vec_itr.eq]

/-- C19: for a mutable iterator at a position `p` within the `difference_type` range
and an offset `n <= p`, `it -= n`, computed as `it += -n` with the unsigned negation
converted to a signed difference, leaves the iterator at `p - n`; so does `it - n`;
`(it + n) - n` is at `p`; the read-only `-=` and `-` arrive at the same position; and
the distance of the iterators at `p` and at `q` is `p - q`. -/
theorem sub_assign_spec (p n : Nat) (q : Int) (hn : n ≤ p) (hp : p ≤ PTRDIFF_MAX) :
    (detail._ptr_vec_itr.mk p).sub_assign n = { _itr := (p : Int) - n } ∧
    (detail._ptr_vec_itr.mk p).sub n = { _itr := (p : Int) - n } ∧
    ((detail._ptr_vec_itr.mk p).add n).sub n = { _itr := (p : Int) } ∧
    (detail._ptr_vec_const_itr.mk p).sub_assign n = { _citr := (p : Int) - n } ∧
    (detail._ptr_vec_const_itr.mk p).sub n = { _citr := (p : Int) - n } ∧
    ((detail._ptr_vec_itr.mk p).sub n)._itr = ((detail._ptr_vec_const_itr.mk p).sub n)._citr ∧
    (detail._ptr_vec_itr.mk p).distance { _itr := q } = (p : Int) - q ∧
    (detail._ptr_vec_const_itr.mk p).distance { _citr := q } = (p : Int) - q := by
  have hnm : n ≤ PTRDIFF_MAX := le_trans hn hp
  have hneg := to_difference_type_size_t_neg n hnm
  have hpos := to_difference_type_of_le n hnm
  have e1 : (detail._ptr_vec_itr.mk p).sub_assign n = { _itr := (p : Int) - n } := by
    simp only [detail._ptr_vec_itr.sub_assign, detail._ptr_vec_itr.add_assign, hneg]
    congr 1
  have e2 : (detail._ptr_vec_const_itr.mk p).sub_assign n = { _citr := (p : Int) - n } := by
    simp only [detail._ptr_vec_const_itr.sub_assign, hpos]
  refine ⟨e1, e1, ?_, e2, e2, ?_, rfl, rfl⟩
  · simp only [detail._ptr_vec_itr.sub, detail._ptr_vec_itr.sub_assign,
      detail._ptr_vec_itr.add, detail._ptr_vec_itr.add_assign, hneg, hpos]
    congr 1; omega
  · show ((detail._ptr_vec_itr.mk p).sub_assign n)._itr =
      ((detail._ptr_vec_const_itr.mk p).sub_assign n)._citr
    rw [e1, e2]

theorem sub_assign_spec_witness :
    (detail._ptr_vec_itr.mk (5 : Nat)).sub_assign 3 = { _itr := ((5 : Nat) : Int) - (3 : Nat) } ∧
    ((detail._ptr_vec_itr.mk (5 : Nat)).add 3).sub 3 = { _itr := ((5 : Nat) : Int) } :=
  ⟨(sub_assign_spec 5 3 0 (by decide) (by decide)).1,
   (sub_assign_spec 5 3 0 (by decide) (by decide)).2.2.1⟩

/-! ### Auxiliary facts: what a call does to the handles and to the free store -/

theorem Heap.delete_destructions {T : Type} (h : Heap T) (p : pointer) :
    (h.delete p).destructions =
      h.destructions + ([p].filter (fun a => decide (a ≠ nullptr))).length := by
  unfold Heap.delete
  by_cases hp : p = nullptr
  · simp [hp]
  · simp [hp]

theorem Heap.delete_all_destructions {T : Type} (ps : List pointer) (h : Heap T) :
    (h.delete_all ps).destructions =
      h.destructions + (ps.filter (fun a => decide (a ≠ nullptr))).length := by
  induction ps generalizing h with
  | nil => rfl
  | cons p ps ih =>
    have hstep : h.delete_all (p :: ps) = (h.delete p).delete_all ps := rfl
    rw [hstep, ih, Heap.delete_destructions]
    have hsplit : (p :: ps).filter (fun a => decide (a ≠ nullptr)) =
        [p].filter (fun a => decide (a ≠ nullptr)) ++
          ps.filter (fun a => decide (a ≠ nullptr)) := by
      rw [← List.filter_append]; rfl
    rw [hsplit, List.length_append, Nat.add_assoc]

theorem Heap.delete_mem_self {T : Type} (h : Heap T) (p : pointer) (hp : p ≠ nullptr) :
    (h.delete p).mem p = none := by
  unfold Heap.delete
  simp [hp]

theorem Heap.delete_mem_none {T : Type} (h : Heap T) (p a : pointer) (ha : h.mem a = none) :
    (h.delete p).mem a = none := by
  unfold Heap.delete
  split
  · exact ha
  · by_cases hap : a = p
    · simp [hap]
    · simp [hap, ha]

theorem Heap.delete_all_mem_none {T : Type} (ps : List pointer) (h : Heap T) (a : pointer)
    (ha : h.mem a = none) : (h.delete_all ps).mem a = none := by
  induction ps generalizing h with
  | nil => exact ha
  | cons p ps ih =>
    have hstep : h.delete_all (p :: ps) = (h.delete p).delete_all ps := rfl
    rw [hstep]
    exact ih _ (Heap.delete_mem_none h p a ha)

theorem Heap.delete_all_mem_of_mem {T : Type} (ps : List pointer) (h : Heap T) (a : pointer)
    (ha : a ∈ ps) (hnn : a ≠ nullptr) : (h.delete_all ps).mem a = none := by
  induction ps generalizing h with
  | nil => exact absurd ha (List.not_mem_nil a)
  | cons p ps ih =>
    have hstep : h.delete_all (p :: ps) = (h.delete p).delete_all ps := rfl
    rw [hstep]
    rcases List.mem_cons.mp ha with hap | hin
    · rw [hap]
      exact Heap.delete_all_mem_none ps _ p (Heap.delete_mem_self h p (hap ▸ hnn))
    · exact ih _ hin

theorem heap_effect_refl {T : Type} (h : Heap T) : heap_effect h h 0 [] := by
  intro a
  exact ⟨fun ha => absurd ha (List.not_mem_nil a), fun _ => ⟨fun hr => by simp at hr, fun _ => rfl⟩⟩

theorem footprint_refl {T : Type} (h : Heap T) (L : List pointer) : footprint h h L L [] :=
  ⟨0, [], by simp, rfl, rfl, rfl, fun _ => heap_effect_refl h⟩

theorem footprint_new {T : Type} (h : Heap T) (value : T) (L L1 : List pointer)
    (hperm : L1.Perm ((h.brk + 1) :: L)) : footprint h (h.new value).1 L L1 [] := by
  refine ⟨1, [], by simpa using hperm, rfl, rfl, rfl, fun _ => ?_⟩
  intro a
  refine ⟨fun ha => absurd ha (List.not_mem_nil a), fun _ => ⟨?_, ?_⟩⟩
  · intro hr
    have ha : a = h.brk + 1 := by simpa using hr
    rw [ha]
    simp [Heap.new]
  · intro hr
    have ha : a ≠ h.brk + 1 := by simpa using hr
    simp [Heap.new, ha]

theorem footprint_delete_all {T : Type} (h : Heap T) (D L L1 : List pointer)
    (hperm : (L1 ++ D).Perm L) : footprint h (h.delete_all D) L L1 [] := by
  refine ⟨0, D, by simpa using hperm, Heap.delete_all_brk D h,
    Heap.delete_all_constructions D h, Heap.delete_all_destructions D h, fun _ => ?_⟩
  intro a
  refine ⟨fun ha hnn => Heap.delete_all_mem_of_mem D h a ha hnn, fun ha => ⟨?_, ?_⟩⟩
  · intro hr
    simp at hr
  · intro _
    exact Heap.delete_all_mem_of_not_mem D h a ha

theorem footprint_adopt {T : Type} (h : Heap T) (p : pointer) (L L1 : List pointer)
    (hperm : L1.Perm (p :: L)) : footprint h h L L1 [p] :=
  ⟨0, [], by simpa using hperm, rfl, rfl, rfl, fun _ => heap_effect_refl h⟩

theorem footprint_trans {T : Type} (h h1 h2 : Heap T) (L L1 L2 : List pointer)
    (f1 : footprint h h1 L L1 []) (f2 : footprint h1 h2 L1 L2 []) : footprint h h2 L L2 [] := by
  obtain ⟨n1, d1, p1, b1, c1, e1, m1⟩ := f1
  obtain ⟨n2, d2, p2, b2, c2, e2, m2⟩ := f2
  simp only [List.nil_append] at p1 p2
  refine ⟨n1 + n2, d2 ++ d1, ?_, ?_, ?_, ?_, ?_⟩
  · simp only [List.nil_append]
    have hs : h1.brk + 1 = (h.brk + 1) + n1 := by
      rw [b1]; exact Nat.add_right_comm _ _ _
    have hr : List.range' (h.brk + 1) (n1 + n2) =
        List.range' (h.brk + 1) n1 ++ List.range' (h1.brk + 1) n2 := by
      rw [hs, List.range'_append_1, Nat.add_comm n2 n1]
    rw [hr]
    have s1 : (L2 ++ (d2 ++ d1)).Perm ((List.range' (h1.brk + 1) n2 ++ L1) ++ d1) := by
      rw [← List.append_assoc]
      exact p2.append_right d1
    have s2 : ((List.range' (h1.brk + 1) n2 ++ L1) ++ d1).Perm
        (List.range' (h1.brk + 1) n2 ++ (List.range' (h.brk + 1) n1 ++ L)) := by
      rw [List.append_assoc]
      exact p1.append_left _
    have s3 : (List.range' (h1.brk + 1) n2 ++ (List.range' (h.brk + 1) n1 ++ L)).Perm
        ((List.range' (h.brk + 1) n1 ++ List.range' (h1.brk + 1) n2) ++ L) := by
      rw [← List.append_assoc]
      exact List.perm_append_comm.append_right L
    exact (s1.trans s2).trans s3
  · rw [b2, b1, Nat.add_assoc]
  · rw [c2, c1, Nat.add_assoc]
  · rw [e2, e1, List.filter_append, List.length_append]
    omega
  · intro hpre
    have k1 := m1 hpre
    have hbound : ∀ a : pointer, a ∈ L1 ++ d1 → @LE.le Nat _ a h1.brk := by
      intro a ha
      have hmem : a ∈ List.range' (h.brk + 1) n1 ++ L := p1.subset ha
      rcases List.mem_append.mp hmem with hr | hL
      · rw [List.mem_range'_1] at hr
        omega
      · have hle : @LE.le Nat _ a h.brk := hpre a hL
        omega
    have k2 := m2 (fun a ha => hbound a (List.mem_append_left d1 ha))
    intro a
    refine ⟨?_, ?_⟩
    · intro ha hnn
      by_cases h2' : a ∈ d2
      · exact (k2 a).1 h2' hnn
      · have h1' : a ∈ d1 := by
          rcases List.mem_append.mp ha with hx | hx
          · exact absurd hx h2'
          · exact hx
        have hb := hbound a (List.mem_append_right L1 h1')
        have hnr : a ∉ List.range' (h1.brk + 1) n2 := by
          rw [List.mem_range'_1]; omega
        rw [((k2 a).2 h2').2 hnr]
        exact (k1 a).1 h1' hnn
    · intro ha
      have h2' : a ∉ d2 := fun hx => ha (List.mem_append_left d1 hx)
      have h1' : a ∉ d1 := fun hx => ha (List.mem_append_right d2 hx)
      refine ⟨?_, ?_⟩
      · intro hr
        rw [List.mem_range'_1] at hr
        by_cases hr2 : a ∈ List.range' (h1.brk + 1) n2
        · exact ((k2 a).2 h2').1 hr2
        · rw [((k2 a).2 h2').2 hr2]
          apply ((k1 a).2 h1').1
          rw [List.mem_range'_1] at hr2 ⊢
          omega
      · intro hr
        rw [List.mem_range'_1] at hr
        have hr2 : a ∉ List.range' (h1.brk + 1) n2 := by
          rw [List.mem_range'_1]; omega
        have hr1 : a ∉ List.range' (h.brk + 1) n1 := by
          rw [List.mem_range'_1]; omega
        rw [((k2 a).2 h2').2 hr2]
        exact ((k1 a).2 h1').2 hr1

theorem footprint_frame {T : Type} (h h1 : Heap T) (L L1 A M : List pointer)
    (f : footprint h h1 L L1 A) : footprint h h1 (L ++ M) (L1 ++ M) A := by
  obtain ⟨n, d, p, b, c, e, m⟩ := f
  refine ⟨n, d, ?_, b, c, e, fun hpre => m (fun a ha => hpre a (List.mem_append_left M ha))⟩
  have s1 : (L1 ++ M ++ d).Perm (L1 ++ d ++ M) := by
    rw [List.append_assoc, List.append_assoc]
    exact List.perm_append_comm.append_left L1
  have s2 : (L1 ++ d ++ M).Perm (A ++ (List.range' (h.brk + 1) n ++ L) ++ M) :=
    p.append_right M
  have s3 : A ++ (List.range' (h.brk + 1) n ++ L) ++ M =
      A ++ (List.range' (h.brk + 1) n ++ (L ++ M)) := by
    simp [List.append_assoc]
  exact s3 ▸ (s1.trans s2)

theorem footprint_perm {T : Type} (h h1 : Heap T) (L L1 K K1 A : List pointer)
    (hL : L.Perm K) (hL1 : L1.Perm K1) (f : footprint h h1 L L1 A) : footprint h h1 K K1 A := by
  obtain ⟨n, d, p, b, c, e, m⟩ := f
  refine ⟨n, d, ?_, b, c, e, fun hpre => m (fun a ha => hpre a (hL.subset ha))⟩
  exact ((hL1.symm.append_right d).trans p).trans ((hL.append_left _).append_left _)

theorem footprint_mem {T : Type} (h h1 : Heap T) (L L1 A : List pointer)
    (f : footprint h h1 L L1 A) (a : pointer) (ha : a ∈ L1) :
    a ∈ A ∨ (h.brk < a ∧ a ≤ h1.brk) ∨ a ∈ L := by
  obtain ⟨n, d, p, b, _, _, _⟩ := f
  have hmem : a ∈ A ++ (List.range' (h.brk + 1) n ++ L) :=
    p.subset (List.mem_append_left d ha)
  rcases List.mem_append.mp hmem with hA | hrest
  · exact Or.inl hA
  · rcases List.mem_append.mp hrest with hr | hL
    · rw [List.mem_range'_1] at hr
      refine Or.inr (Or.inl ⟨?_, ?_⟩)
      · exact Nat.lt_of_succ_le hr.1
      · have hlt : @LE.le Nat _ a (h.brk + n) := by omega
        rw [b]; exact hlt
    · exact Or.inr (Or.inr hL)

theorem footprint_non_null {T : Type} (h h1 : Heap T) (L L1 A : List pointer)
    (f : footprint h h1 L L1 A) (hL : ∀ a ∈ L, a ≠ nullptr) (hA : ∀ a ∈ A, a ≠ nullptr) :
    ∀ a ∈ L1, a ≠ nullptr := by
  intro a ha
  rcases footprint_mem h h1 L L1 A f a ha with h1' | h2 | h3
  · exact hA a h1'
  · exact Nat.ne_of_gt (Nat.lt_of_le_of_lt (Nat.zero_le _) h2.1)
  · exact hL a h3

theorem footprint_unique {T : Type} (h h1 : Heap T) (L L1 A : List pointer)
    (f : footprint h h1 L L1 A) (hnd : L.Nodup) (hle : ∀ a ∈ L, a ≤ h.brk)
    (hA : A.Nodup) (hfresh : ∀ a ∈ A, a ∉ L ∧ a ≤ h.brk) :
    L1.Nodup ∧ ∀ a ∈ L1, a ≤ h1.brk := by
  refine ⟨?_, ?_⟩
  · obtain ⟨n, d, p, _, _, _, _⟩ := f
    have hrl : (List.range' (h.brk + 1) n ++ L).Nodup := by
      rw [List.nodup_append]
      refine ⟨List.nodup_range' _ _, hnd, ?_⟩
      intro a hr haL
      rw [List.mem_range'_1] at hr
      have hle1 : @LE.le Nat _ a h.brk := hle a haL
      omega
    have hall : (A ++ (List.range' (h.brk + 1) n ++ L)).Nodup := by
      rw [List.nodup_append]
      refine ⟨hA, hrl, ?_⟩
      intro a haA hrest
      rcases List.mem_append.mp hrest with hr | haL
      · rw [List.mem_range'_1] at hr
        have hle1 : @LE.le Nat _ a h.brk := (hfresh a haA).2
        omega
      · exact (hfresh a haA).1 haL
    have hboth : (L1 ++ d).Nodup := p.nodup_iff.mpr hall
    exact (List.nodup_append.mp hboth).1
  · intro a ha
    have hb : h.brk ≤ h1.brk := by
      obtain ⟨n, _, _, b, _, _, _⟩ := f
      rw [b]; exact Nat.le_add_right _ _
    rcases footprint_mem h h1 L L1 A f a ha with h1' | h2 | h3
    · exact le_trans (hfresh a h1').2 hb
    · exact h2.2
    · exact le_trans (hle a h3) hb

theorem footprint_balance {T : Type} (h h1 : Heap T) (L L1 : List pointer)
    (f : footprint h h1 L L1 []) (hL : ∀ a ∈ L, a ≠ nullptr)
    (hbal : h.constructions = h.destructions + L.length) :
    h1.constructions = h1.destructions + L1.length := by
  obtain ⟨n, d, p, _, c, e, _⟩ := f
  simp only [List.nil_append] at p
  have hd : d.filter (fun a => decide (a ≠ nullptr)) = d := by
    rw [List.filter_eq_self]
    intro a ha
    have hmem : a ∈ List.range' (h.brk + 1) n ++ L := p.subset (List.mem_append_right L1 ha)
    rcases List.mem_append.mp hmem with hr | haL
    · rw [List.mem_range'_1] at hr
      have : a ≠ nullptr := Nat.ne_of_gt (Nat.lt_of_lt_of_le (Nat.succ_pos _) hr.1)
      simpa using this
    · simpa using hL a haL
  have hlen := p.length_eq
  simp only [List.length_append, List.length_range'] at hlen
  rw [c, e, hd, hbal]
  omega

theorem footprint_live {T : Type} (h h1 : Heap T) (L L1 : List pointer)
    (f : footprint h h1 L L1 []) (hnd : L.Nodup) (hnn : ∀ a ∈ L, a ≠ nullptr)
    (hle : ∀ a ∈ L, a ≤ h.brk) (hlive : live_exactly h L) : live_exactly h1 L1 := by
  obtain ⟨n, d, p, _, _, _, m⟩ := f
  simp only [List.nil_append] at p
  have k := m hle
  have hall : (List.range' (h.brk + 1) n ++ L).Nodup := by
    rw [List.nodup_append]
    refine ⟨List.nodup_range' _ _, hnd, ?_⟩
    intro a hr haL
    rw [List.mem_range'_1] at hr
    have hle1 : @LE.le Nat _ a h.brk := hle a haL
    omega
  have hboth : (L1 ++ d).Nodup := p.nodup_iff.mpr hall
  have hdis := (List.nodup_append.mp hboth).2.2
  have hback : ∀ a : pointer, a ∈ List.range' (h.brk + 1) n ++ L → a ∉ d → a ∈ L1 := by
    intro a ha had
    rcases List.mem_append.mp (p.symm.subset ha) with h1' | h2'
    · exact h1'
    · exact absurd h2' had
  intro a
  constructor
  · intro hs
    by_cases had : a ∈ d
    · have hmem : a ∈ List.range' (h.brk + 1) n ++ L := p.subset (List.mem_append_right L1 had)
      have hne : a ≠ nullptr := by
        rcases List.mem_append.mp hmem with hr | haL
        · rw [List.mem_range'_1] at hr
          exact Nat.ne_of_gt (Nat.lt_of_lt_of_le (Nat.succ_pos _) hr.1)
        · exact hnn a haL
      rw [(k a).1 had hne] at hs
      exact absurd hs (by simp)
    · by_cases hr : a ∈ List.range' (h.brk + 1) n
      · exact hback a (List.mem_append_left L hr) had
      · rw [((k a).2 had).2 hr] at hs
        exact hback a (List.mem_append_right _ ((hlive a).mp hs)) had
  · intro ha
    have had : a ∉ d := fun hx => hdis ha hx
    have hmem : a ∈ List.range' (h.brk + 1) n ++ L := p.subset (List.mem_append_left d ha)
    by_cases hr : a ∈ List.range' (h.brk + 1) n
    · exact ((k a).2 had).1 hr
    · rw [((k a).2 had).2 hr]
      rcases List.mem_append.mp hmem with hx | haL
      · exact absurd hx hr
      · exact (hlive a).mpr haL

theorem split_at_index (vec : List pointer) (k : Nat) (hk : k < vec.length) :
    vec = vec.take k ++ vec.get ⟨k, hk⟩ :: vec.drop (k + 1) := by
  have h1 := (List.take_append_drop k vec).symm
  rw [List.drop_eq_getElem_cons hk] at h1
  exact h1

theorem vector_insert_perm (vec vec1 : List pointer) (pos it : Int) (x : pointer)
    (hins : vector_insert vec pos x = some (vec1, it)) : vec1.Perm (x :: vec) := by
  unfold vector_insert at hins
  split at hins
  · cases hins
    have hm : (vec.take pos.toNat ++ x :: vec.drop pos.toNat).Perm
        (x :: (vec.take pos.toNat ++ vec.drop pos.toNat)) := List.perm_middle
    rw [List.take_append_drop] at hm
    exact hm
  · exact Option.noConfusion hins

theorem insert_footprint {T : Type} (h h1 : Heap T) (self self1 : ptr_vector) (pos it : iterator)
    (value : T) (hins : self.insert h pos value = some (h1, self1, it)) :
    footprint h h1 self._vec self1._vec [] := by
  unfold ptr_vector.insert at hins
  split at hins
  · rename_i vec it1 hv
    cases hins
    exact footprint_new h value _ _ (vector_insert_perm _ _ _ _ _ hv)
  · exact Option.noConfusion hins

theorem emplace_footprint {T : Type} (h h1 : Heap T) (self self1 : ptr_vector)
    (pos it : iterator) (value : T) (hins : self.emplace h pos value = some (h1, self1, it)) :
    footprint h h1 self._vec self1._vec [] :=
  insert_footprint h h1 self self1 pos it value hins

theorem insert_count_loop_footprint {T : Type} (value : T) (c : Nat) (h h1 : Heap T)
    (self self1 : ptr_vector) (it it1 : iterator)
    (hloop : ptr_vector.insert_count_loop value c h self it = some (h1, self1, it1)) :
    footprint h h1 self._vec self1._vec [] := by
  induction c generalizing h self it with
  | zero =>
    simp only [ptr_vector.insert_count_loop, Option.some.injEq, Prod.mk.injEq] at hloop
    obtain ⟨rfl, rfl, _⟩ := hloop
    exact footprint_refl h _
  | succ c ih =>
    simp only [ptr_vector.insert_count_loop] at hloop
    split at hloop
    · rename_i h2 self2 it2 hstep
      exact footprint_trans h h2 h1 _ _ _ (insert_footprint h h2 self self2 it it2 value hstep)
        (ih h2 self2 it2 hloop)
    · exact Option.noConfusion hloop

theorem erase_footprint {T : Type} (h h1 : Heap T) (self self1 : ptr_vector) (pos it : iterator)
    (hers : self.erase h pos = some (h1, self1, it)) :
    footprint h h1 self._vec self1._vec [] := by
  unfold ptr_vector.erase at hers
  split at hers
  · rename_i h2 vec it1 hv
    cases hers
    unfold vector_erase at hv
    split at hv
    · split at hv
      · rename_i p hp
        cases hv
        obtain ⟨hk, hget⟩ := List.getElem?_eq_some_iff.mp hp
        have hd : h.delete p = h.delete_all [p] := rfl
        rw [hd]
        apply footprint_delete_all
        rw [List.eraseIdx_eq_take_drop_succ]
        have hs := split_at_index self._vec pos._itr.toNat hk
        have hg : self._vec.get ⟨pos._itr.toNat, hk⟩ = p := hget
        rw [hg] at hs
        have hm : (self._vec.take pos._itr.toNat ++ self._vec.drop (pos._itr.toNat + 1)
            ++ [p]).Perm (self._vec.take pos._itr.toNat ++ p :: self._vec.drop (pos._itr.toNat + 1)) := by
          rw [List.append_assoc]
          exact (List.perm_append_singleton p _).append_left _
        rw [← hs] at hm
        exact hm
      · exact Option.noConfusion hv
    · exact Option.noConfusion hv
  · exact Option.noConfusion hers

theorem erase_range_footprint {T : Type} (h h1 : Heap T) (self self1 : ptr_vector)
    (first last it : iterator) (hers : self.erase_range h first last = some (h1, self1, it)) :
    footprint h h1 self._vec self1._vec [] := by
  unfold ptr_vector.erase_range at hers
  split at hers
  · rename_i h2 vec it1 hv
    cases hers
    unfold vector_erase_range at hv
    split at hv
    · rename_i hc
      cases hv
      apply footprint_delete_all
      have hfl : first._itr.toNat ≤ last._itr.toNat := Int.toNat_le_toNat hc.2.1
      have hdd : (self._vec.drop first._itr.toNat).drop (last._itr.toNat - first._itr.toNat)
          = self._vec.drop last._itr.toNat := by
        rw [List.drop_drop]; congr 1; omega
      have hd := (List.take_append_drop (last._itr.toNat - first._itr.toNat)
        (self._vec.drop first._itr.toNat)).symm
      rw [hdd] at hd
      have hv2 := (List.take_append_drop first._itr.toNat self._vec).symm
      have hm : (self._vec.take first._itr.toNat ++ self._vec.drop last._itr.toNat ++
          (self._vec.drop first._itr.toNat).take (last._itr.toNat - first._itr.toNat)).Perm
          (self._vec.take first._itr.toNat ++
            ((self._vec.drop first._itr.toNat).take (last._itr.toNat - first._itr.toNat) ++
              self._vec.drop last._itr.toNat)) := by
        rw [List.append_assoc]
        exact List.perm_append_comm.append_left _
      rw [← hd, ← hv2] at hm
      exact hm
    · exact Option.noConfusion hv
  · exact Option.noConfusion hers

theorem push_back_footprint {T : Type} (h : Heap T) (self : ptr_vector) (value : T) :
    footprint h (self.push_back h value).1 self._vec (self.push_back h value).2._vec [] :=
  footprint_new h value _ _ (List.perm_append_singleton _ _)

theorem pop_back_footprint {T : Type} (h h1 : Heap T) (self self1 : ptr_vector)
    (hpop : self.pop_back h = some (h1, self1)) :
    footprint h h1 self._vec self1._vec [] := by
  unfold ptr_vector.pop_back at hpop
  split at hpop
  · rename_i p hp
    cases hpop
    have hd : h.delete p = h.delete_all [p] := rfl
    rw [hd]
    apply footprint_delete_all
    rw [List.dropLast_append_getLast? p (by simp [hp])]
  · exact Option.noConfusion hpop

theorem resize_shrink_footprint {T : Type} (n : Nat) (h h1 : Heap T) (self self1 : ptr_vector)
    (hloop : ptr_vector.resize_shrink n h self = some (h1, self1)) :
    footprint h h1 self._vec self1._vec [] := by
  induction n generalizing h self with
  | zero =>
    simp only [ptr_vector.resize_shrink, Option.some.injEq, Prod.mk.injEq] at hloop
    obtain ⟨rfl, rfl⟩ := hloop
    exact footprint_refl h _
  | succ n ih =>
    simp only [ptr_vector.resize_shrink] at hloop
    split at hloop
    · rename_i h2 self2 hstep
      exact footprint_trans h h2 h1 _ _ _ (pop_back_footprint h h2 self self2 hstep)
        (ih h2 self2 hloop)
    · exact Option.noConfusion hloop

theorem resize_grow_footprint {T : Type} (value : T) (n : Nat) (h : Heap T) (self : ptr_vector) :
    footprint h (ptr_vector.resize_grow value n h self).1 self._vec
      (ptr_vector.resize_grow value n h self).2._vec [] := by
  induction n generalizing h self with
  | zero => exact footprint_refl h _
  | succ n ih =>
    simp only [ptr_vector.resize_grow]
    exact footprint_trans h _ _ _ _ _ (push_back_footprint h self value)
      (ih (self.push_back h value).1 (self.push_back h value).2)

theorem resize_footprint {T : Type} (h h1 : Heap T) (self self1 : ptr_vector) (count : Nat)
    (value : T) (hres : self.resize h count value = some (h1, self1)) :
    footprint h h1 self._vec self1._vec [] := by
  unfold ptr_vector.resize at hres
  split at hres
  · exact resize_shrink_footprint _ h h1 self self1 hres
  · have hg := resize_grow_footprint value (count - self._vec.length) h self
    have he : ptr_vector.resize_grow value (count - self._vec.length) h self = (h1, self1) :=
      Option.some.inj hres
    rw [he] at hg
    exact hg

theorem reset_at_footprint {T : Type} (h : Heap T) (self : ptr_vector) (pos : Nat) (value : T) :
    footprint h (self.reset_at h pos value).1 self._vec (self.reset_at h pos value).2.1._vec
      [] := by
  unfold ptr_vector.reset_at
  by_cases hp : pos < self._vec.length
  · simp only [hp, dite_true]
    have hd : (h.new value).1.delete (self._vec.get ⟨pos, hp⟩) =
        (h.new value).1.delete_all [self._vec.get ⟨pos, hp⟩] := rfl
    rw [hd]
    refine footprint_trans h (h.new value).1 _ self._vec ((h.brk + 1) :: self._vec) _
      (footprint_new h value _ _ (List.Perm.refl _)) ?_
    apply footprint_delete_all
    show (self._vec.set pos (h.brk + 1) ++ [self._vec.get ⟨pos, hp⟩]).Perm
      ((h.brk + 1) :: self._vec)
    rw [List.set_eq_take_cons_drop _ hp]
    have hs := split_at_index self._vec pos hp
    have hm : (self._vec.take pos ++ (h.brk + 1) :: self._vec.drop (pos + 1) ++
        [self._vec.get ⟨pos, hp⟩]).Perm
        ((h.brk + 1) :: (self._vec.take pos ++
          self._vec.get ⟨pos, hp⟩ :: self._vec.drop (pos + 1))) := by
      have s1 : (self._vec.take pos ++ (h.brk + 1) :: self._vec.drop (pos + 1) ++
          [self._vec.get ⟨pos, hp⟩]).Perm
          ((h.brk + 1) :: (self._vec.take pos ++ self._vec.drop (pos + 1)) ++
            [self._vec.get ⟨pos, hp⟩]) := List.perm_middle.append_right _
      have s2 : (self._vec.take pos ++ self._vec.drop (pos + 1) ++
          [self._vec.get ⟨pos, hp⟩]).Perm
          (self._vec.take pos ++ self._vec.get ⟨pos, hp⟩ :: self._vec.drop (pos + 1)) := by
        rw [List.append_assoc]
        exact (List.perm_append_singleton _ _).append_left _
      exact s1.trans (List.Perm.cons _ s2)
    rw [← hs] at hm
    exact hm
  · simp only [hp, dite_false]
    exact footprint_refl h _

theorem clear_footprint {T : Type} (h : Heap T) (self : ptr_vector) :
    footprint h (self.clear h).1 self._vec (self.clear h).2._vec [] :=
  footprint_delete_all h self._vec self._vec [] (by simp [ptr_vector.clear])

theorem push_back_own_footprint {T : Type} (h : Heap T) (self : ptr_vector) (value : pointer) :
    footprint h (self.push_back_own h value).1 self._vec (self.push_back_own h value).2._vec
      (if value ≠ nullptr then [value] else []) := by
  unfold ptr_vector.push_back_own
  by_cases hv : value = nullptr
  · simp only [hv, ne_eq, not_true_eq_false, if_false]
    exact footprint_refl h _
  · simp only [ne_eq, hv, not_false_eq_true, if_true]
    exact footprint_adopt h value _ _ (List.perm_append_singleton _ _)

theorem insert_own_footprint {T : Type} (h h1 : Heap T) (self self1 : ptr_vector)
    (itr : iterator) (value : pointer) (r : List (statement_effect iterator))
    (hins : self.insert_own_body h itr value = some (h1, self1, r)) :
    footprint h h1 self._vec self1._vec (if value ≠ nullptr then [value] else []) := by
  unfold ptr_vector.insert_own_body at hins
  by_cases hv : value = nullptr
  · simp only [hv, ne_eq, not_true_eq_false, if_false, Option.some.injEq, Prod.mk.injEq] at hins ⊢
    obtain ⟨rfl, rfl, _⟩ := hins
    exact footprint_refl h _
  · simp only [ne_eq, hv, not_false_eq_true, if_true] at hins ⊢
    split at hins
    · rename_i vec it1 hvec
      cases hins
      exact footprint_adopt h value _ _ (vector_insert_perm _ _ _ _ _ hvec)
    · exact Option.noConfusion hins

theorem apply_footprint {T : Type} (h h1 : Heap T) (self other self1 other1 : ptr_vector)
    (op : operation T) (hop : op.apply h self other = some (h1, self1, other1))
    (hna : ∀ v, op ≠ operation.allocate v) :
    footprint h h1 (self._vec ++ other._vec) (self1._vec ++ other1._vec) op.adopted := by
  cases op with
  | insert pos value =>
    simp only [operation.apply, Option.map_eq_some', Prod.mk.injEq] at hop
    obtain ⟨⟨h2, s2, it⟩, hins, rfl, rfl, rfl⟩ := hop
    exact footprint_frame _ _ _ _ _ _ (insert_footprint h h2 self s2 pos it value hins)
  | insert_count pos count value =>
    simp only [operation.apply, Option.map_eq_some', Prod.mk.injEq] at hop
    obtain ⟨⟨h2, s2, it⟩, hins, rfl, rfl, rfl⟩ := hop
    exact footprint_frame _ _ _ _ _ _
      (insert_count_loop_footprint value count h h2 self s2 _ it hins)
  | emplace pos value =>
    simp only [operation.apply, Option.map_eq_some', Prod.mk.injEq] at hop
    obtain ⟨⟨h2, s2, it⟩, hins, rfl, rfl, rfl⟩ := hop
    exact footprint_frame _ _ _ _ _ _ (emplace_footprint h h2 self s2 pos it value hins)
  | erase pos =>
    simp only [operation.apply, Option.map_eq_some', Prod.mk.injEq] at hop
    obtain ⟨⟨h2, s2, it⟩, hers, rfl, rfl, rfl⟩ := hop
    exact footprint_frame _ _ _ _ _ _ (erase_footprint h h2 self s2 pos it hers)
  | erase_range first last =>
    simp only [operation.apply, Option.map_eq_some', Prod.mk.injEq] at hop
    obtain ⟨⟨h2, s2, it⟩, hers, rfl, rfl, rfl⟩ := hop
    exact footprint_frame _ _ _ _ _ _ (erase_range_footprint h h2 self s2 first last it hers)
  | push_back value =>
    simp only [operation.apply, Option.some.injEq, Prod.mk.injEq] at hop
    obtain ⟨rfl, rfl, rfl⟩ := hop
    exact footprint_frame _ _ _ _ _ _ (push_back_footprint h self value)
  | emplace_back value =>
    simp only [operation.apply, Option.some.injEq, Prod.mk.injEq] at hop
    obtain ⟨rfl, rfl, rfl⟩ := hop
    exact footprint_frame _ _ _ _ _ _ (push_back_footprint h self value)
  | pop_back =>
    simp only [operation.apply, Option.map_eq_some', Prod.mk.injEq] at hop
    obtain ⟨⟨h2, s2⟩, hpop, rfl, rfl, rfl⟩ := hop
    exact footprint_frame _ _ _ _ _ _ (pop_back_footprint h h2 self s2 hpop)
  | resize count value =>
    simp only [operation.apply, Option.map_eq_some', Prod.mk.injEq] at hop
    obtain ⟨⟨h2, s2⟩, hres, rfl, rfl, rfl⟩ := hop
    exact footprint_frame _ _ _ _ _ _ (resize_footprint h h2 self s2 count value hres)
  | reset_at pos value =>
    simp only [operation.apply, Option.some.injEq, Prod.mk.injEq] at hop
    obtain ⟨rfl, rfl, rfl⟩ := hop
    exact footprint_frame _ _ _ _ _ _ (reset_at_footprint h self pos value)
  | emplace_reset_at pos value =>
    simp only [operation.apply, Option.some.injEq, Prod.mk.injEq] at hop
    obtain ⟨rfl, rfl, rfl⟩ := hop
    exact footprint_frame _ _ _ _ _ _ (reset_at_footprint h self pos value)
  | clear =>
    simp only [operation.apply, Option.some.injEq, Prod.mk.injEq] at hop
    obtain ⟨rfl, rfl, rfl⟩ := hop
    exact footprint_frame _ _ _ _ _ _ (clear_footprint h self)
  | reserve n =>
    simp only [operation.apply, ptr_vector.reserve, Option.some.injEq, Prod.mk.injEq] at hop
    obtain ⟨rfl, rfl, rfl⟩ := hop
    exact footprint_refl h _
  | shrink_to_fit =>
    simp only [operation.apply, ptr_vector.shrink_to_fit, Option.some.injEq,
      Prod.mk.injEq] at hop
    obtain ⟨rfl, rfl, rfl⟩ := hop
    exact footprint_refl h _
  | swap =>
    have hn : self.swap h other = none := rfl
    simp only [operation.apply, hn] at hop
    exact Option.noConfusion hop
  | move_construct =>
    simp only [operation.apply, Option.some.injEq, Prod.mk.injEq] at hop
    obtain ⟨rfl, rfl, rfl⟩ := hop
    exact footprint_refl h _
  | move_assign =>
    simp only [operation.apply, ptr_vector.move_assign, Option.some.injEq,
      Prod.mk.injEq] at hop
    obtain ⟨rfl, rfl, rfl⟩ := hop
    apply footprint_delete_all
    simp only [List.append_nil]
    exact List.perm_append_comm
  | push_back_own value =>
    simp only [operation.apply, Option.some.injEq, Prod.mk.injEq] at hop
    obtain ⟨rfl, rfl, rfl⟩ := hop
    exact footprint_frame _ _ _ _ _ _ (push_back_own_footprint h self value)
  | insert_own itr value =>
    simp only [operation.apply, Option.map_eq_some', Prod.mk.injEq] at hop
    obtain ⟨⟨h2, s2, r⟩, hins, rfl, rfl, rfl⟩ := hop
    exact footprint_frame _ _ _ _ _ _ (insert_own_footprint h h2 self s2 itr value r hins)
  | allocate value => exact absurd rfl (hna value)

/-! ### Auxiliary facts: invariants of a sequence of calls -/

theorem step_footprint {T : Type} (st st1 : program_state T) (c : call T)
    (hstep : st.step c = some st1) (hna : ∀ v, c.op ≠ operation.allocate v) :
    footprint st.heap st1.heap st.handles st1.handles c.op.adopted := by
  obtain ⟨b, op⟩ := c
  unfold program_state.handles
  cases b with
  | true =>
    simp only [program_state.step, if_true, Option.map_eq_some'] at hstep
    obtain ⟨⟨h1, s1, o1⟩, hop, rfl⟩ := hstep
    exact footprint_perm _ _ _ _ _ _ _ List.perm_append_comm List.perm_append_comm
      (apply_footprint st.heap h1 st.second st.first s1 o1 op hop hna)
  | false =>
    simp only [program_state.step, Bool.false_eq_true, if_false, Option.map_eq_some'] at hstep
    obtain ⟨⟨h1, s1, o1⟩, hop, rfl⟩ := hstep
    exact apply_footprint st.heap h1 st.first st.second s1 o1 op hop hna

theorem step_allocate {T : Type} (st st1 : program_state T) (c : call T) (value : T)
    (hop : c.op = operation.allocate value) (hstep : st.step c = some st1) :
    st1.handles = st.handles ∧ st1.heap.brk = st.heap.brk + 1 := by
  obtain ⟨b, op⟩ := c
  simp only at hop
  subst hop
  cases b with
  | true =>
    simp only [program_state.step, if_true, operation.apply, Option.map_some',
      Option.some.injEq] at hstep
    subst hstep
    exact ⟨rfl, rfl⟩
  | false =>
    simp only [program_state.step, Bool.false_eq_true, if_false, operation.apply,
      Option.map_some', Option.some.injEq] at hstep
    subst hstep
    exact ⟨rfl, rfl⟩

theorem adopted_non_null {T : Type} (op : operation T) : ∀ a ∈ op.adopted, a ≠ nullptr := by
  intro a ha
  cases op <;> simp only [operation.adopted, List.not_mem_nil] at ha
  all_goals
    split at ha
    · rename_i hv
      rw [List.mem_singleton] at ha
      rw [ha]; exact hv
    · exact absurd ha (List.not_mem_nil a)

theorem adopted_nodup {T : Type} (op : operation T) : op.adopted.Nodup := by
  cases op <;> simp only [operation.adopted, List.nodup_nil]
  all_goals
    split
    · exact List.nodup_singleton _
    · exact List.nodup_nil

theorem adopted_of_owning {T : Type} (op : operation T) (hown : op.owning = true) :
    op.adopted = [] := by
  cases op <;> first | rfl | exact absurd hown (by simp [operation.owning])

theorem allocate_not_owning {T : Type} (op : operation T) (hown : op.owning = true) :
    ∀ v, op ≠ operation.allocate v := by
  intro v hv
  rw [hv] at hown
  exact absurd hown (by simp [operation.owning])

theorem step_non_null {T : Type} (st st1 : program_state T) (c : call T)
    (hstep : st.step c = some st1) (h0 : ∀ a ∈ st.handles, a ≠ nullptr) :
    ∀ a ∈ st1.handles, a ≠ nullptr := by
  by_cases hal : ∃ v, c.op = operation.allocate v
  · obtain ⟨v, hv⟩ := hal
    rw [(step_allocate st st1 c v hv hstep).1]
    exact h0
  · have hna : ∀ v, c.op ≠ operation.allocate v := fun v hv => hal ⟨v, hv⟩
    exact footprint_non_null _ _ _ _ _ (step_footprint st st1 c hstep hna) h0
      (adopted_non_null c.op)

theorem step_unique {T : Type} (st st1 : program_state T) (c : call T)
    (hstep : st.step c = some st1) (hok : st.transfer_ok c = true)
    (hnd : st.handles.Nodup) (hle : ∀ a ∈ st.handles, a ≤ st.heap.brk) :
    st1.handles.Nodup ∧ ∀ a ∈ st1.handles, a ≤ st1.heap.brk := by
  by_cases hal : ∃ v, c.op = operation.allocate v
  · obtain ⟨v, hv⟩ := hal
    obtain ⟨e1, e2⟩ := step_allocate st st1 c v hv hstep
    rw [e1, e2]
    exact ⟨hnd, fun a ha => Nat.le_succ_of_le (hle a ha)⟩
  · have hna : ∀ v, c.op ≠ operation.allocate v := fun v hv => hal ⟨v, hv⟩
    refine footprint_unique _ _ _ _ _ (step_footprint st st1 c hstep hna) hnd hle
      (adopted_nodup c.op) ?_
    intro a ha
    unfold program_state.transfer_ok at hok
    rw [List.all_eq_true] at hok
    have := hok a ha
    simpa using this

theorem step_balance {T : Type} (st st1 : program_state T) (c : call T)
    (hstep : st.step c = some st1) (hown : c.op.owning = true)
    (h0 : ∀ a ∈ st.handles, a ≠ nullptr)
    (hbal : st.heap.constructions = st.heap.destructions + st.handles.length) :
    st1.heap.constructions = st1.heap.destructions + st1.handles.length := by
  have hf := step_footprint st st1 c hstep (allocate_not_owning c.op hown)
  rw [adopted_of_owning c.op hown] at hf
  exact footprint_balance _ _ _ _ hf h0 hbal

theorem run_non_null {T : Type} (ops : List (call T)) (st st1 : program_state T)
    (hrun : program_state.run ops st = some st1) (h0 : ∀ a ∈ st.handles, a ≠ nullptr) :
    ∀ a ∈ st1.handles, a ≠ nullptr := by
  induction ops generalizing st with
  | nil =>
    simp only [program_state.run, Option.some.injEq] at hrun
    subst hrun
    exact h0
  | cons c rest ih =>
    simp only [program_state.run] at hrun
    split at hrun
    · rename_i st2 hstep
      exact ih st2 hrun (step_non_null st st2 c hstep h0)
    · exact Option.noConfusion hrun

theorem run_unique {T : Type} (ops : List (call T)) (st st1 : program_state T)
    (hrun : program_state.run ops st = some st1)
    (hok : program_state.transfers_ok ops st = true)
    (hnd : st.handles.Nodup) (hle : ∀ a ∈ st.handles, a ≤ st.heap.brk) :
    st1.handles.Nodup ∧ ∀ a ∈ st1.handles, a ≤ st1.heap.brk := by
  induction ops generalizing st with
  | nil =>
    simp only [program_state.run, Option.some.injEq] at hrun
    subst hrun
    exact ⟨hnd, hle⟩
  | cons c rest ih =>
    simp only [program_state.run] at hrun
    simp only [program_state.transfers_ok, Bool.and_eq_true] at hok
    split at hrun
    · rename_i st2 hstep
      rw [hstep] at hok
      obtain ⟨hnd2, hle2⟩ := step_unique st st2 c hstep hok.1 hnd hle
      exact ih st2 hrun hok.2 hnd2 hle2
    · exact Option.noConfusion hrun

theorem run_balance {T : Type} (ops : List (call T)) (st st1 : program_state T)
    (hrun : program_state.run ops st = some st1) (hown : ∀ c ∈ ops, c.op.owning = true)
    (h0 : ∀ a ∈ st.handles, a ≠ nullptr)
    (hbal : st.heap.constructions = st.heap.destructions + st.handles.length) :
    st1.heap.constructions = st1.heap.destructions + st1.handles.length := by
  induction ops generalizing st with
  | nil =>
    simp only [program_state.run, Option.some.injEq] at hrun
    subst hrun
    exact hbal
  | cons c rest ih =>
    simp only [program_state.run] at hrun
    split at hrun
    · rename_i st2 hstep
      exact ih st2 hrun (fun d hd => hown d (List.mem_cons_of_mem c hd))
        (step_non_null st st2 c hstep h0)
        (step_balance st st2 c hstep (hown c (List.mem_cons_self c rest)) h0 hbal)
    · exact Option.noConfusion hrun

theorem step_live {T : Type} (st st1 : program_state T) (c : call T)
    (hstep : st.step c = some st1) (hown : c.op.owning = true)
    (hnd : st.handles.Nodup) (hnn : ∀ a ∈ st.handles, a ≠ nullptr)
    (hle : ∀ a ∈ st.handles, a ≤ st.heap.brk) (hlive : live_exactly st.heap st.handles) :
    live_exactly st1.heap st1.handles := by
  have hf := step_footprint st st1 c hstep (allocate_not_owning c.op hown)
  rw [adopted_of_owning c.op hown] at hf
  exact footprint_live _ _ _ _ hf hnd hnn hle hlive

theorem transfer_ok_of_owning {T : Type} (st : program_state T) (c : call T)
    (hown : c.op.owning = true) : st.transfer_ok c = true := by
  unfold program_state.transfer_ok
  rw [adopted_of_owning c.op hown]
  rfl

theorem run_live {T : Type} (ops : List (call T)) (st st1 : program_state T)
    (hrun : program_state.run ops st = some st1) (hown : ∀ c ∈ ops, c.op.owning = true)
    (hnd : st.handles.Nodup) (hnn : ∀ a ∈ st.handles, a ≠ nullptr)
    (hle : ∀ a ∈ st.handles, a ≤ st.heap.brk) (hlive : live_exactly st.heap st.handles) :
    live_exactly st1.heap st1.handles := by
  induction ops generalizing st with
  | nil =>
    simp only [program_state.run, Option.some.injEq] at hrun
    subst hrun
    exact hlive
  | cons c rest ih =>
    simp only [program_state.run] at hrun
    split at hrun
    · rename_i st2 hstep
      have hc := hown c (List.mem_cons_self c rest)
      obtain ⟨hnd2, hle2⟩ := step_unique st st2 c hstep (transfer_ok_of_owning st c hc) hnd hle
      exact ih st2 hrun (fun d hd => hown d (List.mem_cons_of_mem c hd)) hnd2
        (step_non_null st st2 c hstep hnn) hle2 (step_live st st2 c hstep hc hnd hnn hle hlive)
    · exact Option.noConfusion hrun

theorem finish_dead {T : Type} (st : program_state T) (hnn : ∀ a ∈ st.handles, a ≠ nullptr)
    (hlive : live_exactly st.heap st.handles) : ∀ a : pointer, st.finish.mem a = none := by
  intro a
  unfold program_state.handles at hnn hlive
  unfold program_state.finish ptr_vector.destroy
  by_cases h1 : a ∈ st.first._vec
  · exact Heap.delete_all_mem_of_mem _ _ a h1 (hnn a (List.mem_append_left _ h1))
  · apply Heap.delete_all_mem_none
    by_cases h2 : a ∈ st.second._vec
    · exact Heap.delete_all_mem_of_mem _ _ a h2 (hnn a (List.mem_append_right _ h2))
    · apply Heap.delete_all_mem_none
      have hnot : ¬ (st.heap.mem a).isSome = true := by
        intro hs
        rcases List.mem_append.mp ((hlive a).mp hs) with hx | hx
        · exact h1 hx
        · exact h2 hx
      cases hm : st.heap.mem a with
      | none => rfl
      | some v => rw [hm] at hnot; exact absurd rfl hnot

theorem transfers_ok_of_owning {T : Type} (ops : List (call T)) (st : program_state T)
    (hown : ∀ c ∈ ops, c.op.owning = true) : program_state.transfers_ok ops st = true := by
  induction ops generalizing st with
  | nil => rfl
  | cons c rest ih =>
    have hc : st.transfer_ok c = true := by
      unfold program_state.transfer_ok
      rw [adopted_of_owning c.op (hown c (List.mem_cons_self c rest))]
      rfl
    simp only [program_state.transfers_ok, hc, Bool.true_and]
    split
    · exact ih _ (fun d hd => hown d (List.mem_cons_of_mem c hd))
    · rfl

theorem finish_counts {T : Type} (st : program_state T) (h0 : ∀ a ∈ st.handles, a ≠ nullptr) :
    st.finish.constructions = st.heap.constructions ∧
    st.finish.destructions = st.heap.destructions + st.handles.length := by
  have hfilter : ∀ L : List pointer, (∀ a ∈ L, a ≠ nullptr) →
      (L.filter (fun a => decide (a ≠ nullptr))).length = L.length := by
    intro L hL
    have : L.filter (fun a => decide (a ≠ nullptr)) = L := by
      rw [List.filter_eq_self]
      intro a ha
      simpa using hL a ha
    rw [this]
  unfold program_state.handles at h0 ⊢
  have h1 : ∀ a ∈ st.first._vec, a ≠ nullptr := fun a ha => h0 a (List.mem_append_left _ ha)
  have h2 : ∀ a ∈ st.second._vec, a ≠ nullptr := fun a ha => h0 a (List.mem_append_right _ ha)
  unfold program_state.finish ptr_vector.destroy
  refine ⟨?_, ?_⟩
  · rw [Heap.delete_all_constructions, Heap.delete_all_constructions]
  · rw [Heap.delete_all_destructions, Heap.delete_all_destructions, hfilter _ h1, hfilter _ h2,
      List.length_append]
    omega

/-! ## Theorems on sequences of calls -/

/-- C14: starting from empty stores, after any sequence of `insert`, `push_back`,
`emplace`, `emplace_back`, `erase`, `pop_back`, `resize`, `reset_at`, `clear` and move
calls (each allocation returning a fresh address) that reaches a state: no two slots
reference the same element address; the elements alive in the free store are
exactly those the slots reference, so none has leaked and none was destroyed while a
slot still references it; constructions so far are the destructions so far plus one
per slot. Destroying the stores then destroys one element per slot, after which no
element is alive and the number of element destructions equals the number of
element constructions: each element was destroyed exactly once. -/
theorem ownership_uniqueness {T : Type} (ops : List (call T)) (st : program_state T)
    (hown : ∀ c ∈ ops, c.op.owning = true)
    (hrun : program_state.run ops program_state.init = some st) :
    st.handles.Nodup ∧
    st.heap.constructions = st.heap.destructions + st.handles.length ∧
    st.finish.destructions = st.finish.constructions ∧
    (∀ a : pointer, (st.heap.mem a).isSome = true ↔ a ∈ st.handles) ∧
    st.finish.destructions = st.heap.destructions + st.handles.length ∧
    (∀ a : pointer, st.finish.mem a = none) := by
  have hnn : ∀ a ∈ st.handles, a ≠ nullptr :=
    run_non_null ops _ st hrun (fun a ha => absurd ha (List.not_mem_nil a))
  have hbal := run_balance ops _ st hrun hown
    (fun a ha => absurd ha (List.not_mem_nil a)) rfl
  have huni := run_unique ops _ st hrun (transfers_ok_of_owning ops _ hown) List.nodup_nil
    (fun a ha => absurd ha (List.not_mem_nil a))
  have hlive0 : live_exactly (program_state.init : program_state T).heap
      (program_state.init : program_state T).handles := by
    intro a
    constructor
    · intro hs
      exact absurd hs (by simp [program_state.init, Heap.empty])
    · intro ha
      exact absurd ha (List.not_mem_nil a)
  have hlive := run_live ops _ st hrun hown List.nodup_nil
    (fun a ha => absurd ha (List.not_mem_nil a))
    (fun a ha => absurd ha (List.not_mem_nil a)) hlive0
  obtain ⟨e1, e2⟩ := finish_counts st hnn
  exact ⟨huni.1, hbal, by rw [e1, e2, hbal], hlive, e2, finish_dead st hnn hlive⟩

theorem ownership_uniqueness_witness :
    (program_state.run
      [{ on_second := false, op := operation.push_back (5 : Int) },
       { on_second := false, op := operation.push_back 7 },
       { on_second := false, op := operation.insert { _itr := 1 } 6 },
       { on_second := false, op := operation.reset_at 0 3 },
       { on_second := false, op := operation.reset_at 9 3 },
       { on_second := true, op := operation.move_assign },
       { on_second := true, op := operation.pop_back },
       { on_second := false, op := operation.resize 2 0 }]
      program_state.init).map (fun st => (st.first, st.second)) =
        some ({ _vec := [5, 6] }, { _vec := [4, 3] }) ∧
    ∃ st : program_state Int,
      program_state.run
        [{ on_second := false, op := operation.push_back (5 : Int) },
         { on_second := false, op := operation.push_back 7 },
         { on_second := false, op := operation.insert { _itr := 1 } 6 },
         { on_second := false, op := operation.reset_at 0 3 },
         { on_second := false, op := operation.reset_at 9 3 },
         { on_second := true, op := operation.move_assign },
         { on_second := true, op := operation.pop_back },
         { on_second := false, op := operation.resize 2 0 }]
        program_state.init = some st ∧
      st.handles.Nodup ∧
      st.heap.constructions = st.heap.destructions + st.handles.length ∧
      st.finish.destructions = st.finish.constructions ∧
      (∀ a : pointer, (st.heap.mem a).isSome = true ↔ a ∈ st.handles) ∧
      st.finish.destructions = st.heap.destructions + st.handles.length ∧
      (∀ a : pointer, st.finish.mem a = none) := by
  refine ⟨rfl, ?_⟩
  obtain ⟨st, hst⟩ := Option.isSome_iff_exists.mp
    (rfl : (program_state.run
      [{ on_second := false, op := operation.push_back (5 : Int) },
       { on_second := false, op := operation.push_back 7 },
       { on_second := false, op := operation.insert { _itr := 1 } 6 },
       { on_second := false, op := operation.reset_at 0 3 },
       { on_second := false, op := operation.reset_at 9 3 },
       { on_second := true, op := operation.move_assign },
       { on_second := true, op := operation.pop_back },
       { on_second := false, op := operation.resize 2 0 }]
      program_state.init).isSome = true)
  exact ⟨st, hst, ownership_uniqueness _ st (by simp [operation.owning]) hst⟩

/-- C15: starting from empty stores, after any sequence of public calls that reaches
a state, `push_back_own` and `insert_own` with null or non-null pointers included,
every slot of either store holds a non-null handle. -/
theorem non_null_invariant {T : Type} (ops : List (call T)) (st : program_state T)
    (hrun : program_state.run ops program_state.init = some st) :
    (∀ a ∈ st.first._vec, a ≠ nullptr) ∧ (∀ a ∈ st.second._vec, a ≠ nullptr) ∧
    (∀ i, st.first.subscript i ≠ some nullptr ∧ st.second.subscript i ≠ some nullptr) := by
  have hnn : ∀ a ∈ st.handles, a ≠ nullptr :=
    run_non_null ops _ st hrun (fun a ha => absurd ha (List.not_mem_nil a))
  unfold program_state.handles at hnn
  have h1 : ∀ a ∈ st.first._vec, a ≠ nullptr := fun a ha => hnn a (List.mem_append_left _ ha)
  have h2 : ∀ a ∈ st.second._vec, a ≠ nullptr := fun a ha => hnn a (List.mem_append_right _ ha)
  refine ⟨h1, h2, ?_⟩
  intro i
  unfold ptr_vector.subscript
  exact ⟨fun hi => h1 nullptr (List.getElem?_mem hi) rfl,
    fun hi => h2 nullptr (List.getElem?_mem hi) rfl⟩

theorem non_null_invariant_witness :
    ∃ st : program_state Int,
      program_state.run
        [{ on_second := false, op := operation.push_back_own 0 },
         { on_second := false, op := operation.push_back_own 8 },
         { on_second := false, op := operation.insert_own { _itr := 0 } 0 },
         { on_second := false, op := operation.insert_own { _itr := 0 } 9 },
         { on_second := false, op := operation.emplace { _itr := 1 } (4 : Int) }]
        program_state.init = some st ∧
      (∀ a ∈ st.first._vec, a ≠ nullptr) ∧ (∀ a ∈ st.second._vec, a ≠ nullptr) ∧
      (∀ i, st.first.subscript i ≠ some nullptr ∧ st.second.subscript i ≠ some nullptr) := by
  obtain ⟨st, hst⟩ := Option.isSome_iff_exists.mp
    (rfl : (program_state.run
      [{ on_second := false, op := operation.push_back_own 0 },
       { on_second := false, op := operation.push_back_own 8 },
       { on_second := false, op := operation.insert_own { _itr := 0 } 0 },
       { on_second := false, op := operation.insert_own { _itr := 0 } 9 },
       { on_second := false, op := operation.emplace { _itr := 1 } (4 : Int) }]
      program_state.init).isSome = true)
  exact ⟨st, hst, non_null_invariant _ st hst⟩

/-- C16, as stated, fails: the caller allocates one element and hands its address to
`push_back_own` twice; both calls store it, and two slots reference the same
element. -/
theorem aliasing_after_repeated_transfer :
    (program_state.run
      [{ on_second := false, op := operation.allocate (5 : Int) },
       { on_second := false, op := operation.push_back_own 1 },
       { on_second := false, op := operation.push_back_own 1 }]
      program_state.init).map (fun st => (st.first._vec, decide st.handles.Nodup)) =
        some ([1, 1], false) := by
  rfl

/-- C16, amended: in every state reached from empty stores by a sequence of public
calls in which each pointer handed to `push_back_own` or `insert_own` is null or
points to an allocated element that no slot references, no two slots reference the
same element. -/
theorem no_aliasing_with_fresh_transfers {T : Type} (ops : List (call T))
    (st : program_state T)
    (hfresh : program_state.transfers_ok ops program_state.init = true)
    (hrun : program_state.run ops program_state.init = some st) :
    st.handles.Nodup :=
  (run_unique ops _ st hrun hfresh List.nodup_nil
    (fun a ha => absurd ha (List.not_mem_nil a))).1

theorem no_aliasing_with_fresh_transfers_witness :
    (program_state.run
      [{ on_second := false, op := operation.allocate (5 : Int) },
       { on_second := false, op := operation.push_back 7 },
       { on_second := false, op := operation.push_back_own 1 },
       { on_second := false, op := operation.allocate 6 },
       { on_second := true, op := operation.insert_own { _itr := 0 } 3 },
       { on_second := true, op := operation.push_back_own 0 }]
      program_state.init).map (fun st => (st.first, st.second)) =
        some ({ _vec := [2, 1] }, { _vec := [3] }) ∧
    ∃ st : program_state Int,
      program_state.run
        [{ on_second := false, op := operation.allocate (5 : Int) },
         { on_second := false, op := operation.push_back 7 },
         { on_second := false, op := operation.push_back_own 1 },
         { on_second := false, op := operation.allocate 6 },
         { on_second := true, op := operation.insert_own { _itr := 0 } 3 },
         { on_second := true, op := operation.push_back_own 0 }]
        program_state.init = some st ∧
      st.handles.Nodup := by
  refine ⟨rfl, ?_⟩
  obtain ⟨st, hst⟩ := Option.isSome_iff_exists.mp
    (rfl : (program_state.run
      [{ on_second := false, op := operation.allocate (5 : Int) },
       { on_second := false, op := operation.push_back 7 },
       { on_second := false, op := operation.push_back_own 1 },
       { on_second := false, op := operation.allocate 6 },
       { on_second := true, op := operation.insert_own { _itr := 0 } 3 },
       { on_second := true, op := operation.push_back_own 0 }]
      program_state.init).isSome = true)
  exact ⟨st, hst, no_aliasing_with_fresh_transfers _ st (by decide) hst⟩

end ptr_vec
